import Mathlib

/-
Verification development for the codebase-mcp semantic-search engine.

The Python sources under src/semantic_search and src/chunkers are shallowly
embedded as executable Lean definitions:

  * Python strings are modelled as lists of characters (`PyStr`); `str.lower`
    is modelled by ASCII case folding (the identifiers and paths involved in
    the specified behaviour are ASCII).
  * Python floats for relevance scores are modelled as exact rationals; the
    score constants 1.0 / 0.9 / 0.7 / 0.5 / 0.0 are exactly representable, so
    no rounding behaviour is lost.
  * The SQLite tables are modelled as lists of rows; `INSERT OR REPLACE` on a
    primary key is modelled as in-place replacement or append.
  * The FAISS inner-product index is modelled as a list of vectors; the
    external `faiss.normalize_L2` (which divides by an L2 norm, irrational in
    general) and `hashlib` digests are modelled as function parameters, since
    they are external collaborators; nothing proved depends on their values.
-/

set_option maxHeartbeats 1000000

namespace CodebaseMCP

/-- Python strings, modelled as lists of characters. -/
abbrev PyStr := List Char

/-- ASCII case folding; models `str.lower` on the ASCII strings the claims use. -/
def lowerStr (s : PyStr) : PyStr := s.map Char.toLower

/-- Models Python `str.startswith`: `isPrefixList p s` says `s` starts with `p`. -/
def isPrefixList : PyStr → PyStr → Bool
  | [], _ => true
  | _ :: _, [] => false
  | a :: as, b :: bs => decide (a = b) && isPrefixList as bs

/-- Models the Python substring test `needle in hay`. -/
def containsSub (needle : PyStr) : PyStr → Bool
  | [] => isPrefixList needle []
  | c :: rest => isPrefixList needle (c :: rest) || containsSub needle rest

/-- Models Python `str.lstrip()` (no arguments: strips all whitespace). -/
def lstripStr (s : PyStr) : PyStr := s.dropWhile Char.isWhitespace

/-- Models Python `str.strip()`. -/
def stripStr (s : PyStr) : PyStr := ((lstripStr s).reverse.dropWhile Char.isWhitespace).reverse

/-- Number of occurrences of a character, modelling `str.count`. -/
def countChar (c : Char) (l : PyStr) : Nat := (l.filter (fun x => decide (x = c))).length

/-- Models the Python membership test `c in line` for a single character. -/
def hasChar (c : Char) (l : PyStr) : Bool := l.any (fun x => decide (x = c))

/-- Join a list of strings with a separator character (`sep.join(parts)` shape). -/
def intercalateChar (c : Char) : List PyStr → PyStr
  | [] => []
  | [l] => l
  | l :: rest => l ++ c :: intercalateChar c rest

/-- Join a list of strings with a separator string, modelling `sep.join(parts)`. -/
def intercalateStr (sep : PyStr) : List PyStr → PyStr
  | [] => []
  | [l] => l
  | l :: rest => l ++ sep ++ intercalateStr sep rest

/-- Split a string at every occurrence of a character, modelling `str.split(c)`. -/
def splitOnChar (c : Char) (s : PyStr) : List PyStr :=
  match s with
  | [] => [[]]
  | x :: rest =>
    let r := splitOnChar c rest
    if x = c then [] :: r
    else
      match r with
      | [] => [[x]]
      | h :: t => (x :: h) :: t

/-- Decimal digits of a natural number, modelling `str(n)`. -/
def natStr (n : Nat) : PyStr := (Nat.repr n).data

/-- Decimal digits of an integer, modelling `str(i)`. -/
def intStr (i : Int) : PyStr := (Int.repr i).data

section SortHelpers

variable {α : Type} (key : α → ℚ)

/-- Insertion step of a sort by descending rational key. -/
def insertDescBy (x : α) : List α → List α
  | [] => [x]
  | y :: ys => if key x ≤ key y then y :: insertDescBy x ys else x :: y :: ys

/-- Sort by descending rational key. Models `list.sort(key=..., reverse=True)`;
the order among elements of equal key is not part of any claim, so the
stability of CPython's sort is not modelled. -/
def sortDescBy : List α → List α
  | [] => []
  | x :: xs => insertDescBy key x (sortDescBy xs)

theorem mem_insertDescBy {x a : α} {l : List α} :
    a ∈ insertDescBy key x l ↔ a = x ∨ a ∈ l := by
  induction l with
  | nil => simp [insertDescBy]
  | cons y ys ih =>
    by_cases h : key x ≤ key y
    · simp only [insertDescBy, if_pos h, List.mem_cons]
      rw [ih]
      tauto
    · simp only [insertDescBy, if_neg h, List.mem_cons]

theorem mem_sortDescBy {a : α} {l : List α} :
    a ∈ sortDescBy key l ↔ a ∈ l := by
  induction l with
  | nil => simp [sortDescBy]
  | cons x xs ih =>
    simp only [sortDescBy, mem_insertDescBy, List.mem_cons, ih]

theorem pairwise_insertDescBy {x : α} {l : List α}
    (h : l.Pairwise (fun a b => key b ≤ key a)) :
    (insertDescBy key x l).Pairwise (fun a b => key b ≤ key a) := by
  induction l with
  | nil => simp [insertDescBy]
  | cons y ys ih =>
    rcases List.pairwise_cons.mp h with ⟨hy, hys⟩
    by_cases hxy : key x ≤ key y
    · simp only [insertDescBy, if_pos hxy]
      refine List.pairwise_cons.mpr ⟨?_, ih hys⟩
      intro a ha
      rcases (mem_insertDescBy key).mp ha with rfl | ha
      · exact hxy
      · exact hy a ha
    · simp only [insertDescBy, if_neg hxy]
      refine List.pairwise_cons.mpr ⟨?_, h⟩
      intro a ha
      rcases List.mem_cons.mp ha with rfl | ha
      · exact le_of_lt (lt_of_not_le hxy)
      · exact le_trans (hy a ha) (le_of_lt (lt_of_not_le hxy))

theorem pairwise_sortDescBy (l : List α) :
    (sortDescBy key l).Pairwise (fun a b => key b ≤ key a) := by
  induction l with
  | nil => simp [sortDescBy]
  | cons x xs ih => exact pairwise_insertDescBy key ih

/-- Insertion step of a sort by ascending natural key. -/
def insertAscBy (keyN : α → Nat) (x : α) : List α → List α
  | [] => [x]
  | y :: ys => if keyN y ≤ keyN x then y :: insertAscBy keyN x ys else x :: y :: ys

/-- Sort by ascending natural key (models SQL `ORDER BY line_start`). -/
def sortAscBy (keyN : α → Nat) : List α → List α
  | [] => []
  | x :: xs => insertAscBy keyN x (sortAscBy keyN xs)

theorem mem_insertAscBy {keyN : α → Nat} {x a : α} {l : List α} :
    a ∈ insertAscBy keyN x l ↔ a = x ∨ a ∈ l := by
  induction l with
  | nil => simp [insertAscBy]
  | cons y ys ih =>
    by_cases h : keyN y ≤ keyN x
    · simp only [insertAscBy, if_pos h, List.mem_cons]
      rw [ih]
      tauto
    · simp only [insertAscBy, if_neg h, List.mem_cons]

theorem mem_sortAscBy {keyN : α → Nat} {a : α} {l : List α} :
    a ∈ sortAscBy keyN l ↔ a ∈ l := by
  induction l with
  | nil => simp [sortAscBy]
  | cons x xs ih =>
    simp only [sortAscBy, mem_insertAscBy, List.mem_cons, ih]

end SortHelpers

/-- Greedy in-order matcher from `FuzzySymbolSearch.fuzzy_match_score`:
`query_idx` starts at the first argument and is advanced over the characters
of the candidate whenever the next query character is seen.  Direct
translation of the `for char in symbol_lower` loop. -/
def subseqCount (q : PyStr) : Nat → PyStr → Nat
  | idx, [] => idx
  | idx, c :: rest =>
    if idx < q.length ∧ c = q.getD idx ' ' then subseqCount q (idx + 1) rest
    else subseqCount q idx rest

theorem sublist_cons_right_of_ne {α : Type} {x c : α} {t l : List α}
    (hne : x ≠ c) (h : List.Sublist (x :: t) (c :: l)) : List.Sublist (x :: t) l := by
  cases h with
  | cons _ h' => exact h'
  | cons₂ _ _ => exact absurd rfl hne

theorem subseqCount_eq_length_iff_aux (q : PyStr) (s : PyStr) :
    ∀ idx, idx ≤ q.length →
      (subseqCount q idx s = q.length ↔ List.Sublist (q.drop idx) s) := by
  induction s with
  | nil =>
    intro idx hidx
    simp only [subseqCount, List.sublist_nil]
    constructor
    · intro h
      subst h
      exact List.drop_eq_nil_of_le le_rfl
    · intro h
      have := List.drop_eq_nil_iff.mp h
      omega
  | cons c rest ih =>
    intro idx hidx
    by_cases h : idx < q.length ∧ c = q.getD idx ' '
    · rw [subseqCount, if_pos h]
      obtain ⟨hlt, hc⟩ := h
      rw [ih (idx + 1) hlt]
      have hdrop : q.drop idx = q[idx] :: q.drop (idx + 1) := List.drop_eq_getElem_cons hlt
      have hgd : q.getD idx ' ' = q[idx] := List.getD_eq_getElem q ' ' hlt
      rw [hdrop, hc, hgd]
      exact (List.cons_sublist_cons).symm
    · rw [subseqCount, if_neg h]
      rw [ih idx hidx]
      rcases Nat.lt_or_ge idx q.length with hlt | hge
      · have hc : c ≠ q.getD idx ' ' := fun hc => h ⟨hlt, hc⟩
        have hdrop : q.drop idx = q[idx] :: q.drop (idx + 1) := List.drop_eq_getElem_cons hlt
        have hgd : q.getD idx ' ' = q[idx] := List.getD_eq_getElem q ' ' hlt
        have hne : q[idx] ≠ c := by
          rw [← hgd]
          exact fun he => hc he.symm
        constructor
        · intro hsub
          exact hsub.cons c
        · intro hsub
          rw [hdrop] at hsub ⊢
          exact sublist_cons_right_of_ne hne hsub
      · have hnil : q.drop idx = [] := List.drop_eq_nil_of_le hge
        rw [hnil]
        simp [List.nil_sublist]

/-- The greedy loop succeeds (matches the whole query) exactly when the query
is an in-order subsequence of the candidate. -/
theorem subseqCount_eq_length_iff (q s : PyStr) :
    subseqCount q 0 s = q.length ↔ List.Sublist q s := by
  have := subseqCount_eq_length_iff_aux q s 0 (Nat.zero_le _)
  simpa using this

/-- Direct translation of `FuzzySymbolSearch.fuzzy_match_score`. -/
def fuzzy_match_score (query symbol : PyStr) : ℚ :=
  let query_lower := lowerStr query
  let symbol_lower := lowerStr symbol
  if query_lower = symbol_lower then 1
  else if isPrefixList query_lower symbol_lower then mkRat 9 10
  else if containsSub query_lower symbol_lower then mkRat 7 10
  else if subseqCount query_lower 0 symbol_lower = query_lower.length then mkRat 1 2
  else 0

theorem isPrefixList_iff (p s : PyStr) :
    isPrefixList p s = true ↔ ∃ t, s = p ++ t := by
  induction p generalizing s with
  | nil => simp [isPrefixList]
  | cons a as ih =>
    cases s with
    | nil =>
      simp only [isPrefixList, List.cons_append]
      constructor
      · intro h; cases h
      · rintro ⟨t, ht⟩; cases ht
    | cons b bs =>
      simp only [isPrefixList, Bool.and_eq_true, decide_eq_true_eq, ih]
      constructor
      · rintro ⟨rfl, t, rfl⟩
        exact ⟨t, rfl⟩
      · rintro ⟨t, ht⟩
        injection ht with h1 h2
        exact ⟨h1.symm ▸ rfl, t, h2⟩

theorem containsSub_iff (needle hay : PyStr) :
    containsSub needle hay = true ↔ ∃ l₁ l₂, hay = l₁ ++ needle ++ l₂ := by
  induction hay with
  | nil =>
    simp only [containsSub, isPrefixList_iff]
    constructor
    · rintro ⟨t, ht⟩
      exact ⟨[], t, by simpa using ht⟩
    · rintro ⟨l₁, l₂, h⟩
      cases l₁ with
      | nil => exact ⟨l₂, by simpa using h⟩
      | cons x xs => cases h
  | cons c rest ih =>
    simp only [containsSub, Bool.or_eq_true, isPrefixList_iff, ih]
    constructor
    · rintro (⟨t, ht⟩ | ⟨l₁, l₂, h⟩)
      · exact ⟨[], t, by simpa using ht⟩
      · exact ⟨c :: l₁, l₂, by simp [h]⟩
    · rintro ⟨l₁, l₂, h⟩
      cases l₁ with
      | nil =>
        left
        exact ⟨l₂, by simpa using h⟩
      | cons x xs =>
        right
        injection h with h1 h2
        exact ⟨xs, l₂, h2⟩

/-- Row of the SQLite `chunks` table (`VectorStore._init_sqlite`).  `chunk_id`
is the primary key; `faiss_index` is the row's position in the FAISS index.
The `created_at`/`updated_at` timestamps are not modelled (no claim mentions
them). -/
structure ChunkRow where
  chunk_id : PyStr
  file_path : PyStr
  chunk_type : PyStr
  symbol_name : Option PyStr
  line_start : Nat
  line_end : Nat
  signature : Option PyStr
  docstring : Option PyStr
  content : PyStr
  file_hash : PyStr
  faiss_index : Nat
deriving DecidableEq

/-- Row of the SQLite `file_hashes` table; `file_path` is the primary key.
The `last_indexed` timestamp is not modelled. -/
structure FileHashRecord where
  file_path : PyStr
  file_hash : PyStr
  chunk_count : Nat
deriving DecidableEq

/-- Model of `models.SearchResult`. -/
structure SearchResult where
  chunk_id : PyStr
  file_path : PyStr
  symbol_name : Option PyStr
  line_start : Nat
  line_end : Nat
  signature : Option PyStr
  docstring : Option PyStr
  relevance_score : ℚ
  chunk_type : PyStr
deriving DecidableEq

/-- Model of `models.ChunkData` (the chunkers' output record). -/
structure ChunkData where
  chunk_id : PyStr
  file_path : PyStr
  chunk_type : PyStr
  symbol_name : Option PyStr
  line_start : Nat
  line_end : Nat
  content : PyStr
  signature : Option PyStr
  docstring : Option PyStr
  file_hash : Option PyStr
deriving DecidableEq

/-- Build a `SearchResult` from a chunk row and a score, as in the result
construction of `FuzzySymbolSearch.search_symbols` and `VectorStore.search`. -/
def rowToResult (r : ChunkRow) (score : ℚ) : SearchResult :=
  { chunk_id := r.chunk_id
    file_path := r.file_path
    symbol_name := r.symbol_name
    line_start := r.line_start
    line_end := r.line_end
    signature := r.signature
    docstring := r.docstring
    relevance_score := score
    chunk_type := r.chunk_type }

namespace FuzzySymbolSearch

/-- Translation of `FuzzySymbolSearch.search_symbols`.  The SQL filter is
`WHERE symbol_name IS NOT NULL [AND chunk_type = ?] [AND file_path LIKE ?]`;
the `LIKE '%p%'` filter is modelled as a substring test, which is exact for
patterns free of the SQL wildcards `%`/`_` (no claim uses a wildcard).  The
final `results.sort(key=..., reverse=True)[:max_results]` is the descending
sort and truncation. -/
def search_symbols (rows : List ChunkRow) (query : PyStr) (symbol_type : Option PyStr)
    (file_pattern : Option PyStr) (fuzzy : Bool) (min_score : ℚ) (max_results : Nat) :
    List SearchResult :=
  let filtered := rows.filter (fun r =>
    r.symbol_name.isSome
      && (match symbol_type with
          | none => true
          | some t => decide (r.chunk_type = t))
      && (match file_pattern with
          | none => true
          | some p => containsSub p r.file_path))
  let results := filtered.filterMap (fun r =>
    match r.symbol_name with
    | none => none
    | some nm =>
      if nm = [] then none   -- `if not symbol_name: continue` (empty string is falsy)
      else if fuzzy then
        let score := fuzzy_match_score query nm
        if score < min_score then none
        else some (rowToResult r score)
      else
        if lowerStr query ≠ lowerStr nm then none
        else some (rowToResult r 1))
  (sortDescBy (fun x => x.relevance_score) results).take max_results

end FuzzySymbolSearch

/-- Embedding vectors, with exact rational coordinates. -/
abbrev Vec := List ℚ

/-- Inner product of two vectors. -/
def dot (v w : Vec) : ℚ := (List.zipWith (fun a b => a * b) v w).sum

/-- Model of `faiss.IndexFlatIP.search`: score every stored vector by inner
product against the query and return the best `k` as (score, row) pairs in
descending score order.  The caller always passes `k ≤ ntotal`, so the `-1`
padding entries FAISS emits for `k > ntotal` never arise (the source skips
them defensively).  Tie order among equal scores is not part of any claim. -/
def faissTop (index : List Vec) (q : Vec) (k : Nat) : List (ℚ × Nat) :=
  (sortDescBy (fun p => p.1) (index.enum.map (fun p => (dot p.2 q, p.1)))).take k

/-- Persistent state of `VectorStore`: the two SQLite tables and the FAISS
index (a list of vectors, append-only). -/
structure StoreState where
  chunks : List ChunkRow
  file_hashes : List FileHashRecord
  index : List Vec
deriving DecidableEq

/-- Statistics returned by `VectorStore.get_stats` (the three counts and the
vector total; the constant boolean fields are omitted). -/
structure Stats where
  total_chunks : Nat
  total_files : Nat
  tracked_files : Nat
  faiss_vectors : Nat
deriving DecidableEq

namespace VectorStore

/-- Translation of `VectorStore.get_stats`. -/
def get_stats (s : StoreState) : Stats :=
  { total_chunks := s.chunks.length
    total_files := ((s.chunks.map (fun r => r.file_path)).dedup).length
    tracked_files := s.file_hashes.length
    faiss_vectors := s.index.length }

/-- Translation of `VectorStore.remove_file_chunks`: delete the chunk rows and
the file-hash row for the path, return the number of chunk rows deleted.  The
FAISS index is not touched. -/
def remove_file_chunks (s : StoreState) (file_path : PyStr) : Nat × StoreState :=
  let removed := (s.chunks.filter (fun r => decide (r.file_path = file_path))).length
  (removed,
    { chunks := s.chunks.filter (fun r => !(decide (r.file_path = file_path)))
      file_hashes := s.file_hashes.filter (fun fh => !(decide (fh.file_path = file_path)))
      index := s.index })

/-- Translation of `VectorStore.search`.  `normalize_L2` is the external
FAISS query normalization, passed as a parameter (it divides by an L2 norm,
which has no exact rational form; no claim depends on its values).  The
metadata lookup `SELECT ... WHERE faiss_index = ?` with `fetchone` is the
first matching row.  An empty `file_pattern` string is falsy in Python and
applies no filter; `containsSub [] _ = true` gives the same behaviour. -/
def search (normalize_L2 : Vec → Vec) (s : StoreState) (query_embedding : Vec)
    (top_k : Nat) (file_pattern : Option PyStr) : List SearchResult :=
  if s.index.length = 0 then []
  else
    let q := normalize_L2 query_embedding
    let hits := faissTop s.index q (min (top_k * 2) s.index.length)
    let results := hits.filterMap (fun h =>
      match s.chunks.find? (fun r => decide (r.faiss_index = h.2)) with
      | none => none
      | some row =>
        match file_pattern with
        | some p => if containsSub p row.file_path then some (rowToResult row h.1) else none
        | none => some (rowToResult row h.1))
    results.take top_k

/-- One `INSERT OR REPLACE` into the `chunks` table: `chunk_id` is the
primary key, so an existing row with the same id is replaced in place,
otherwise the row is appended. -/
def upsertChunk (table : List ChunkRow) (row : ChunkRow) : List ChunkRow :=
  if table.any (fun r => decide (r.chunk_id = row.chunk_id)) then
    table.map (fun r => if r.chunk_id = row.chunk_id then row else r)
  else table ++ [row]

/-- One `INSERT OR REPLACE` into the `file_hashes` table, keyed on
`file_path`. -/
def upsertFileHash (table : List FileHashRecord) (e : PyStr × PyStr × Nat) :
    List FileHashRecord :=
  if table.any (fun r => decide (r.file_path = e.1)) then
    table.map (fun r =>
      if r.file_path = e.1 then
        { file_path := e.1, file_hash := e.2.1, chunk_count := e.2.2 }
      else r)
  else table ++ [{ file_path := e.1, file_hash := e.2.1, chunk_count := e.2.2 }]

/-- The `file_chunks` dictionary built inside `add_chunks`: first chunk of a
path records the hash, every chunk of the path bumps the count.  Insertion
order of a Python dict is first-occurrence order. -/
def collectFileChunks (rows : List ChunkRow) : List (PyStr × PyStr × Nat) :=
  rows.foldl
    (fun acc row =>
      if acc.any (fun e => decide (e.1 = row.file_path)) then
        acc.map (fun e =>
          if e.1 = row.file_path then (e.1, e.2.1, e.2.2 + 1) else e)
      else acc ++ [(row.file_path, row.file_hash, 1)])
    []

/-- The metadata row `add_chunks` writes for one chunk: the chunk's fields
with the assigned FAISS position.  `calc_file_hash` models the fallback
`self.calculate_file_hash(chunk.file_path)` (a filesystem read), used when
the chunk carries no hash (`chunk.file_hash or ...`; the empty string is
falsy). -/
def chunkRowOf (calc_file_hash : PyStr → PyStr) (faiss_idx : Nat) (c : ChunkData) :
    ChunkRow :=
  { chunk_id := c.chunk_id
    file_path := c.file_path
    chunk_type := c.chunk_type
    symbol_name := c.symbol_name
    line_start := c.line_start
    line_end := c.line_end
    signature := c.signature
    docstring := c.docstring
    content := c.content
    file_hash :=
      match c.file_hash with
      | some h => if h = [] then calc_file_hash c.file_path else h
      | none => calc_file_hash c.file_path
    faiss_index := faiss_idx }

/-- The rows written by one `add_chunks` call: the i-th chunk receives
`faiss_index = current_faiss_size + i`. -/
def buildRows (calc_file_hash : PyStr → PyStr) (current_faiss_size : Nat)
    (chunks : List ChunkData) : List ChunkRow :=
  chunks.enum.map (fun p => chunkRowOf calc_file_hash (current_faiss_size + p.1) p.2)

/-- Translation of `VectorStore.add_chunks`.  On a length mismatch the
`ValueError` is raised before anything is mutated: modelled by returning the
unchanged state with the error message.  Otherwise the normalized embeddings
are appended to the FAISS index, each chunk's metadata row is written with
`faiss_index = previous ntotal + i`, and the per-file hash records are
upserted. -/
def add_chunks (normalize_L2 : Vec → Vec) (calc_file_hash : PyStr → PyStr)
    (s : StoreState) (chunks : List ChunkData) (embeddings : List Vec) :
    StoreState × Option PyStr :=
  if chunks.length ≠ embeddings.length then
    (s, some ("Number of chunks must match number of embeddings".data))
  else
    let rows := buildRows calc_file_hash s.index.length chunks
    ({ chunks := rows.foldl upsertChunk s.chunks
       file_hashes := (collectFileChunks rows).foldl upsertFileHash s.file_hashes
       index := s.index ++ embeddings.map normalize_L2 }, none)

end VectorStore

/-- Fuelled core of `globMatch`; every recursive call strictly decreases
`pat.length + s.length`, so fuel `pat.length + s.length + 1` always
suffices.  The fuel keeps the recursion structural (kernel-computable). -/
def globMatchFuel : Nat → PyStr → PyStr → Bool
  | 0, _, _ => false
  | _ + 1, [], [] => true
  | _ + 1, [], _ :: _ => false
  | fuel + 1, '*' :: ps, [] => globMatchFuel fuel ps []
  | fuel + 1, '*' :: ps, c :: s =>
    globMatchFuel fuel ps (c :: s) || globMatchFuel fuel ('*' :: ps) s
  | _ + 1, '?' :: _, [] => false
  | fuel + 1, '?' :: ps, _ :: s => globMatchFuel fuel ps s
  | _ + 1, _ :: _, [] => false
  | fuel + 1, p :: ps, c :: s => decide (p = c) && globMatchFuel fuel ps s

/-- Shell-style wildcard match, modelling `fnmatch.fnmatch` on POSIX (no case
folding) for patterns built from literals, `*` and `?`; the `[...]` character
classes of `fnmatch` are not modelled (no pattern in the claims uses one).
First argument is the pattern. -/
def globMatch (pat s : PyStr) : Bool :=
  globMatchFuel (pat.length + s.length + 1) pat s

/-- The hard-coded directory deny-list of `TextSearcher.should_ignore_file`. -/
def ignore_dirs : List PyStr :=
  [".git".data, "__pycache__".data, "node_modules".data, ".venv".data,
   "venv".data, "dist".data, "build".data]

/-- The hard-coded file deny-list of `TextSearcher.should_ignore_file`. -/
def ignore_files : List PyStr :=
  [".gitignore".data, ".env".data, ".DS_Store".data]

/-- Last path component, modelling `Path(p).name` for relative POSIX paths. -/
def pathName (p : PyStr) : PyStr := (splitOnChar '/' p).getLastD []

namespace TextSearcher

/-- Translation of `TextSearcher.should_ignore_file` for relative POSIX
paths: any path component in the directory deny-list, a basename in the file
deny-list, or a gitignore pattern matching the path or the basename. -/
def should_ignore_file (file_path : PyStr) (gitignore_patterns : List PyStr) : Bool :=
  let parts := splitOnChar '/' file_path
  let nm := pathName file_path
  parts.any (fun part => ignore_dirs.any (fun d => decide (d = part)))
    || ignore_files.any (fun f => decide (f = nm))
    || gitignore_patterns.any (fun pat => globMatch pat file_path || globMatch pat nm)

/-- One text-search hit (the dict appended by `search_in_files`). -/
structure TextMatch where
  file : PyStr
  line : Nat
  content : PyStr
  match_type : PyStr
deriving DecidableEq

/-- Translation of the literal (non-regex) mode of
`TextSearcher.search_in_files`.  The filesystem walk is modelled as a list of
(relative path, line list) pairs in walk order; `fnmatch` applies to the
basename and the ignore checks to the path, as in the source.  Collecting
until `max_results` and returning early is equivalent to truncating the full
scan.  The regex mode compiles the query with `re` and is not modelled: no
claim exercises it. -/
def search_in_files (files : List (PyStr × List PyStr)) (gitignore_patterns : List PyStr)
    (query : PyStr) (file_pattern : PyStr) (case_sensitive : Bool) (max_results : Nat) :
    List TextMatch :=
  let search_query := if case_sensitive then query else lowerStr query
  ((files.filter (fun f =>
      globMatch file_pattern (pathName f.1)
        && !(should_ignore_file f.1 gitignore_patterns))).flatMap
    (fun f => f.2.enum.filterMap (fun p =>
      let line_to_search := if case_sensitive then p.2 else lowerStr p.2
      if containsSub search_query line_to_search then
        some { file := f.1, line := p.1 + 1, content := stripStr p.2,
               match_type := "text".data }
      else none))).take max_results

end TextSearcher

/-- Translation of the `"text"` branch of
`EnhancedSearchManager.enhanced_search`: run the literal text search with the
default `"*.py"` pattern and wrap each hit as a `SearchResult` with score 1
and chunk type `text_match`. -/
def enhanced_search_text (files : List (PyStr × List PyStr))
    (gitignore_patterns : List PyStr) (query : PyStr) (file_pattern : Option PyStr)
    (case_sensitive : Bool) (max_results : Nat) : List SearchResult :=
  let text_results := TextSearcher.search_in_files files gitignore_patterns query
    (file_pattern.getD ("*.py".data)) case_sensitive max_results
  text_results.enum.map (fun p =>
    { chunk_id := "text_".data ++ natStr p.1
      file_path := p.2.file
      symbol_name := none
      line_start := p.2.line
      line_end := p.2.line
      signature := none
      docstring := none
      relevance_score := 1
      chunk_type := "text_match".data })

/-- Leading space/tab count, translating `SymbolBoundsDetector._leading_indent`
(`len(line) - len(line.lstrip(' \t'))`). -/
def leading_indent (line : PyStr) : Nat :=
  line.length - (line.dropWhile (fun c => decide (c = ' ') || decide (c = '\t'))).length

/-- Does the stripped line start with `@` (a decorator line)? -/
def isDecoLine (l : PyStr) : Bool :=
  match lstripStr l with
  | c :: _ => decide (c = '@')
  | [] => false

/-- Does the stripped line start with `#` (a comment line)? -/
def isCommentLine (l : PyStr) : Bool :=
  match lstripStr l with
  | c :: _ => decide (c = '#')
  | [] => false

/-- Is the line blank (`not line.strip()`)? -/
def isBlankLine (l : PyStr) : Bool := decide (stripStr l = [])

/-- The opening curly brace (written via its code point to keep brace
characters out of literals). -/
def openBrace : Char := Char.ofNat 123

/-- The closing curly brace. -/
def closeBrace : Char := Char.ofNat 125

namespace SymbolBoundsDetector

/-- The upward decorator extension of `find_python_bounds`: the
`while start - 1 >= 0 and lines[start - 1].lstrip().startswith('@')` loop. -/
def decoStart (lines : List PyStr) : Nat → Nat
  | 0 => 0
  | s + 1 => if isDecoLine (lines.getD s []) then decoStart lines s else s + 1

/-- The forward scan of `find_python_bounds` over the remaining lines: skip
blank/comment lines, stop (returning `some (i - 1)`) at the first line at
indentation ≤ the baseline, else `none` for end of file. -/
def scanStop (base_indent : Nat) : List PyStr → Nat → Option Nat
  | [], _ => none
  | line :: rest, i =>
    if isBlankLine line || isCommentLine line then scanStop base_indent rest (i + 1)
    else if leading_indent line ≤ base_indent then some (i - 1)
    else scanStop base_indent rest (i + 1)

/-- The forward scan of `find_python_bounds`, iterating `lines[start:]`
exactly as the source's `for i in range(start_idx + 1, n)` loop; the
fallthrough returns the last line of the file. -/
def scanEnd (lines : List PyStr) (base_indent : Nat) (start : Nat) : Nat :=
  match scanStop base_indent (lines.drop start) start with
  | some e => e
  | none => lines.length - 1

/-- Translation of `SymbolBoundsDetector.find_python_bounds` (the unused
`symbol_type` parameter is dropped). -/
def find_python_bounds (lines : List PyStr) (start_idx : Nat) : Nat × Nat :=
  (decoStart lines start_idx,
   scanEnd lines (leading_indent (lines.getD start_idx [])) (start_idx + 1))

/-- Per-line brace bookkeeping of `find_javascript_bounds` once a brace is
open: the stack length after pushing on each opening and popping (if
non-empty) on each closing brace, which is exactly `Nat` counting floored at
zero. -/
def jsLineStep (d : Nat) (line : PyStr) : Nat :=
  line.foldl
    (fun acc c =>
      if c = openBrace then acc + 1
      else if c = closeBrace then acc - 1
      else acc) d

/-- The `opened` phase of `find_javascript_bounds`, over the remaining
lines: process each line's braces; the first line after which the stack is
empty is the end (`none` for end of file). -/
def jsScan2 (d : Nat) : List PyStr → Nat → Option Nat
  | [], _ => none
  | line :: rest, i =>
    let d' := jsLineStep d line
    if d' = 0 then some i else jsScan2 d' rest (i + 1)

/-- Does the stripped line end with `)`? -/
def stripEndsWithParen (line : PyStr) : Bool :=
  decide ((stripStr line).getLast? = some ')')

/-- The pre-brace phase of `find_javascript_bounds`, over the remaining
lines: on the first line containing an opening brace, the stack receives the
line's opening-brace count and then drops the closing-brace count from its
top (`brace_stack[:-line.count(...)]`), i.e. truncated subtraction; an empty
stack means a single-line declaration (`inl i`), otherwise the scan hands
over to the opened phase with the current depth (`inr (d, i + 1)`).  A
brace-free line containing `;` or whose stripped form ends in `)` is a
single-line declaration. -/
def jsScan1 : List PyStr → Nat → Option (Nat ⊕ (Nat × Nat))
  | [], _ => none
  | line :: rest, i =>
    if hasChar openBrace line then
      let d0 := countChar openBrace line
      let d1 := countChar closeBrace line
      let d := if d1 = 0 then d0 else d0 - d1
      if d = 0 then some (.inl i) else some (.inr (d, i + 1))
    else if hasChar ';' line || stripEndsWithParen line then some (.inl i)
    else jsScan1 rest (i + 1)

/-- Translation of `SymbolBoundsDetector.find_javascript_bounds`. -/
def find_javascript_bounds (lines : List PyStr) (start_idx : Nat) : Nat × Nat :=
  match jsScan1 (lines.drop start_idx) start_idx with
  | some (.inl e) => (start_idx, e)
  | some (.inr (d, j)) =>
    match jsScan2 d (lines.drop j) j with
    | some e => (start_idx, e)
    | none => (start_idx, lines.length - 1)
  | none => (start_idx, lines.length - 1)

end SymbolBoundsDetector

/-- The language families distinguished by `detect_language`. -/
inductive Language where
  | python
  | javascript
  | typescript
  | text
deriving DecidableEq

/-- File extension including the dot, modelling `Path(p).suffix.lower()`
combined with lower-casing (CPython: the name's part from its last dot,
provided that dot is neither the first nor the last character). -/
def pathSuffix (file_path : PyStr) : PyStr :=
  let nm := pathName file_path
  let dots := nm.enum.filterMap (fun p => if p.2 = '.' then some p.1 else none)
  match dots.getLast? with
  | some i => if 0 < i ∧ i + 1 < nm.length then lowerStr (nm.drop i) else []
  | none => []

/-- Translation of `SymbolReader.detect_language` (and the identical
`SymbolMatcher.detect_language`). -/
def detect_language (file_path : PyStr) : Language :=
  let suff := pathSuffix file_path
  if suff = ".py".data then .python
  else if suff = ".js".data then .javascript
  else if suff = ".jsx".data then .javascript
  else if suff = ".ts".data then .typescript
  else if suff = ".tsx".data then .typescript
  else .text

/-- Translation of `SymbolBoundsDetector.find_symbol_bounds` (the unused
`symbol_type` parameter is dropped). -/
def find_symbol_bounds (lines : List PyStr) (start_idx : Nat) (language : Language) :
    Nat × Nat :=
  match language with
  | .python => SymbolBoundsDetector.find_python_bounds lines start_idx
  | .javascript => SymbolBoundsDetector.find_javascript_bounds lines start_idx
  | .typescript => SymbolBoundsDetector.find_javascript_bounds lines start_idx
  | .text => (start_idx, start_idx)

/-- ASCII identifier head character, the `[a-zA-Z_]` class of the symbol
patterns. -/
def isIdentStart (c : Char) : Bool := c.isAlpha || decide (c = '_')

/-- ASCII identifier character, the `[\w_]` class of the symbol patterns
(ASCII subset; the identifiers in the claims are ASCII). -/
def isIdentChar (c : Char) : Bool := c.isAlphanum || decide (c = '_')

/-- Match a literal keyword followed by mandatory whitespace (`kw\s+` in the
source regexes) at the front of the string; returns the remainder after the
whitespace. -/
def afterKeyword (kw : PyStr) (l : PyStr) : Option PyStr :=
  if isPrefixList kw l then
    match l.drop kw.length with
    | c :: rest =>
      if c.isWhitespace then some ((c :: rest).dropWhile Char.isWhitespace) else none
    | [] => none
  else none

/-- Match `[a-zA-Z_][\w_]*` at the front of the string; returns the
identifier and the remainder. -/
def takeIdent (l : PyStr) : Option (PyStr × PyStr) :=
  match l with
  | c :: rest =>
    if isIdentStart c then
      let tailPart := rest.takeWhile isIdentChar
      some (c :: tailPart, rest.drop tailPart.length)
    else none
  | [] => none

namespace SymbolReader

/-- Pattern `^\s*def\s+([a-zA-Z_][\w_]*)\s*\(`. -/
def pyDefPattern (line : PyStr) : Option PyStr :=
  match afterKeyword ("def".data) (lstripStr line) with
  | some r =>
    match takeIdent r with
    | some (nm, rest) =>
      match rest.dropWhile Char.isWhitespace with
      | '(' :: _ => some nm
      | _ => none
    | none => none
  | none => none

/-- Pattern `^\s*class\s+([a-zA-Z_][\w_]*)\s*(:|\(|$)`. -/
def pyClassPattern (line : PyStr) : Option PyStr :=
  match afterKeyword ("class".data) (lstripStr line) with
  | some r =>
    match takeIdent r with
    | some (nm, rest) =>
      match rest.dropWhile Char.isWhitespace with
      | [] => some nm
      | ':' :: _ => some nm
      | '(' :: _ => some nm
      | _ => none
    | none => none
  | none => none

/-- Pattern `^\s*async\s+def\s+([a-zA-Z_][\w_]*)\s*\(`. -/
def pyAsyncDefPattern (line : PyStr) : Option PyStr :=
  match afterKeyword ("async".data) (lstripStr line) with
  | some r =>
    match afterKeyword ("def".data) r with
    | some r' =>
      match takeIdent r' with
      | some (nm, rest) =>
        match rest.dropWhile Char.isWhitespace with
        | '(' :: _ => some nm
        | _ => none
      | none => none
    | none => none
  | none => none

/-- Pattern `^\s*function\s+([a-zA-Z_][\w_]*)\s*\(`. -/
def jsFunctionPattern (line : PyStr) : Option PyStr :=
  match afterKeyword ("function".data) (lstripStr line) with
  | some r =>
    match takeIdent r with
    | some (nm, rest) =>
      match rest.dropWhile Char.isWhitespace with
      | '(' :: _ => some nm
      | _ => none
    | none => none
  | none => none

/-- Pattern `^\s*(?:const|let|var)\s+([a-zA-Z_][\w_]*)\s*=\s*\(`. -/
def jsConstFnPattern (line : PyStr) : Option PyStr :=
  let tryKw := fun (kw : PyStr) =>
    match afterKeyword kw (lstripStr line) with
    | some r =>
      match takeIdent r with
      | some (nm, rest) =>
        match rest.dropWhile Char.isWhitespace with
        | '=' :: r2 =>
          match r2.dropWhile Char.isWhitespace with
          | '(' :: _ => some nm
          | _ => none
        | _ => none
      | none => none
    | none => none
  match tryKw ("const".data) with
  | some nm => some nm
  | none =>
    match tryKw ("let".data) with
    | some nm => some nm
    | none => tryKw ("var".data)

/-- Pattern `^\s*class\s+([a-zA-Z_][\w_]*)\s*(?:\{|extends|$)`. -/
def jsClassPattern (line : PyStr) : Option PyStr :=
  match afterKeyword ("class".data) (lstripStr line) with
  | some r =>
    match takeIdent r with
    | some (nm, rest) =>
      let r' := rest.dropWhile Char.isWhitespace
      match r' with
      | [] => some nm
      | c :: _ =>
        if c = openBrace then some nm
        else if isPrefixList ("extends".data) r' then some nm
        else none
    | none => none
  | none => none

/-- Pattern `^\s*interface\s+([a-zA-Z_][\w_]*)\s*\{`. -/
def tsInterfacePattern (line : PyStr) : Option PyStr :=
  match afterKeyword ("interface".data) (lstripStr line) with
  | some r =>
    match takeIdent r with
    | some (nm, rest) =>
      match rest.dropWhile Char.isWhitespace with
      | c :: _ => if c = openBrace then some nm else none
      | [] => none
    | none => none
  | none => none

/-- The per-language fallback pattern tables of
`SymbolReader.read_code_content` (pattern, symbol type). -/
def symbolPatternsFor (language : Language) : List ((PyStr → Option PyStr) × PyStr) :=
  match language with
  | .python =>
    [(pyDefPattern, "function".data), (pyClassPattern, "class".data),
     (pyAsyncDefPattern, "function".data)]
  | .javascript =>
    [(jsFunctionPattern, "function".data), (jsConstFnPattern, "function".data),
     (jsClassPattern, "class".data)]
  | .typescript =>
    [(jsFunctionPattern, "function".data), (tsInterfacePattern, "interface".data),
     (jsClassPattern, "class".data)]
  | .text => []

/-- The fallback scan of `read_code_content`: every (0-based line, symbol
type) pair whose line matches a pattern with the requested name.  The inner
loop appends once per matching pattern, as in the source. -/
def fallbackMatches (language : Language) (lines : List PyStr) (symbol_name : PyStr) :
    List (Nat × PyStr) :=
  lines.enum.flatMap (fun p =>
    (symbolPatternsFor language).filterMap (fun pat =>
      match pat.1 p.2 with
      | some nm => if nm = symbol_name then some (p.1, pat.2) else none
      | none => none))

/-- Translation of `SymbolReader.find_symbol_in_database`: select the chunk
rows with the exact symbol name (SQL `=` never matches NULL) and optionally
the exact file path, ordered by `file_path, line_start`; each row becomes a
`SearchResult` with score 1.  In every use below the file path is fixed, so
ordering by `line_start` models the ORDER BY. -/
def find_symbol_in_database (rows : List ChunkRow) (symbol_name : PyStr)
    (file_path : Option PyStr) : List SearchResult :=
  let rs := rows.filter (fun r =>
    decide (r.symbol_name = some symbol_name)
      && (match file_path with
          | none => true
          | some fp => decide (r.file_path = fp)))
  (sortAscBy (fun r => r.line_start) rs).map (fun r => rowToResult r 1)

/-- The success payload of `read_code_content` (content, mode, line range;
the `file_size` stat requires a filesystem stat call and is not modelled). -/
structure ReadSuccess where
  content : PyStr
  mode : PyStr
  range_start : Nat
  range_end : Int
  total_lines : Nat
  total_file_lines : Nat
deriving DecidableEq

/-- Discriminated result of `read_code_content` (`success: True/False`). -/
inductive ReadResult where
  | ok (r : ReadSuccess)
  | err (msg : PyStr)
deriving DecidableEq

/-- The `success` flag of a read result. -/
def ReadResult.isOk : ReadResult → Bool
  | .ok _ => true
  | .err _ => false

/-- Models `str.rjust`. -/
def rjustStr (s : PyStr) (w : Nat) : PyStr := List.replicate (w - s.length) ' ' ++ s

/-- The output formatting of `read_code_content`: optional right-justified
line numbers with a ` | ` separator. -/
def formatSelected (selected : List PyStr) (line_offset : Nat)
    (with_line_numbers : Bool) : PyStr :=
  if with_line_numbers then
    let width := (natStr (line_offset + selected.length - 1)).length
    intercalateChar '\n' (selected.enum.map (fun p =>
      rjustStr (natStr (p.1 + line_offset)) width ++ " | ".data ++ p.2))
  else intercalateChar '\n' selected

/-- Assemble the success dictionary of `read_code_content`. -/
def mkOk (selected : List PyStr) (line_offset : Nat) (mode : PyStr) (n : Nat)
    (with_line_numbers : Bool) : ReadResult :=
  .ok { content := formatSelected selected line_offset with_line_numbers
        mode := mode
        range_start := line_offset
        range_end := (line_offset : Int) + selected.length - 1
        total_lines := selected.length
        total_file_lines := n }

/-- Placeholder result used only under a bounds guard. -/
def dummyResult : SearchResult :=
  { chunk_id := [], file_path := [], symbol_name := none, line_start := 0,
    line_end := 0, signature := none, docstring := none, relevance_score := 0,
    chunk_type := [] }

/-- Translation of `SymbolReader.read_code_content` from the point where the
file has been read and split into lines.  The preceding path validation,
existence and binary-content checks depend on the filesystem and are outside
the model (each of them returns a failure result, never reaching this code).
Mode priority follows the source: an explicit line range wins, then a
non-empty symbol name, else the whole file; a Python-falsy (empty) symbol
name falls through to the whole-file mode.  Error message texts reproduce the
source's wording except for its quote characters around the symbol name. -/
def read_code_content (dbRows : List ChunkRow) (file_path : PyStr) (lines : List PyStr)
    (start_line end_line : Option Int) (symbol_name : Option PyStr) (occurrence : Int)
    (with_line_numbers : Bool) : ReadResult :=
  let n := lines.length
  match start_line, end_line with
  | some s, some e =>
    if s < 1 ∨ e < 1 ∨ e > (n : Int) ∨ s > e then
      .err ("Invalid line range: ".data ++ intStr s ++ "-".data ++ intStr e
        ++ " (file has ".data ++ natStr n ++ " lines)".data)
    else
      let selected := (lines.drop (s.toNat - 1)).take (e.toNat - (s.toNat - 1))
      mkOk selected s.toNat ("line_range".data) n with_line_numbers
  | _, _ =>
    match symbol_name with
    | some nm =>
      if nm = [] then mkOk lines 1 ("whole_file".data) n with_line_numbers
      else
        let language := detect_language file_path
        let db_results := find_symbol_in_database dbRows nm (some file_path)
        if db_results = [] then
          let symbol_matches := fallbackMatches language lines nm
          if symbol_matches = [] then
            .err ("Symbol ".data ++ nm ++ " not found in ".data ++ file_path)
          else if occurrence < 1 ∨ occurrence > (symbol_matches.length : Int) then
            .err ("Invalid occurrence: ".data ++ intStr occurrence
              ++ " (found ".data ++ natStr symbol_matches.length ++ " matches)".data)
          else
            let m := symbol_matches.getD (occurrence.toNat - 1) (0, [])
            let be := find_symbol_bounds lines m.1 language
            let selected := (lines.drop be.1).take (be.2 + 1 - be.1)
            mkOk selected (be.1 + 1) ("symbol_pattern_".data ++ m.2) n with_line_numbers
        else
          if occurrence < 1 ∨ occurrence > (db_results.length : Int) then
            .err ("Invalid occurrence: ".data ++ intStr occurrence
              ++ " (found ".data ++ natStr db_results.length ++ " matches)".data)
          else
            let target := db_results.getD (occurrence.toNat - 1) dummyResult
            let start_idx := target.line_start - 1
            let be := find_symbol_bounds lines start_idx language
            let selected := (lines.drop be.1).take (be.2 + 1 - be.1)
            mkOk selected (be.1 + 1) ("symbol_db_".data ++ target.chunk_type) n
              with_line_numbers
    | none => mkOk lines 1 ("whole_file".data) n with_line_numbers

/-- The number of matches `read_code_content` finds for a symbol request:
database rows if any, else fallback pattern hits. -/
def matchesFound (dbRows : List ChunkRow) (file_path : PyStr) (lines : List PyStr)
    (nm : PyStr) : Nat :=
  let db := find_symbol_in_database dbRows nm (some file_path)
  if db = [] then (fallbackMatches (detect_language file_path) lines nm).length
  else db.length

end SymbolReader

/-- A CPython `ast.FunctionDef` / `ast.AsyncFunctionDef` node, restricted to
the fields the chunker reads plus the decorator lines.  Per the CPython AST
(3.8 and later, as required by this repository's dependencies), `lineno` is
the line of the `def` keyword itself and `end_lineno` the last line of the
body; the decorators above the declaration live in `decorator_list`, whose
line numbers are all strictly below `lineno`. -/
structure PyFunc where
  isAsync : Bool
  name : PyStr
  lineno : Nat
  end_lineno : Nat
  decorator_linenos : List Nat
  args : List (PyStr × Option PyStr)
  returns : Option PyStr

/-- A CPython `ast.ClassDef` node, restricted to the fields the chunker
reads; `lineno` is the line of the `class` keyword (CPython ≥ 3.8). -/
structure PyClass where
  name : PyStr
  lineno : Nat
  end_lineno : Nat
  col_offset : Nat
  decorator_linenos : List Nat
  bases : List PyStr

/-- Python statements as far as the chunker distinguishes them.  `exprConst`
is an expression statement whose value is a string constant (a docstring
position); compound statements other than `def`/`class` are collapsed to
`otherStmt` (their nested declarations are outside the model). -/
inductive PyStmt where
  | importStmt (names : List PyStr)
  | importFrom (module : Option PyStr)
  | exprConst (value : PyStr)
  | functionDef (f : PyFunc) (body : List PyStmt)
  | classDef (c : PyClass) (body : List PyStmt)
  | otherStmt

namespace PythonChunker

/-- The docstring extraction shared by both chunk builders: `body[0]` is an
`ast.Expr` holding an `ast.Constant`. -/
def docstringOf : List PyStmt → Option PyStr
  | .exprConst v :: _ => some v
  | _ => none

/-- Models Python `str(x)` applied to a possibly-`None` docstring: the source
passes `str(docstring)`, so a missing docstring becomes the literal string
`None`. -/
def pyStrOfOpt : Option PyStr → PyStr
  | some v => v
  | none => "None".data

/-- Translation of `BaseChunker._extract_content_lines`
(`"\n".join(content.split("\n")[start-1:end])`). -/
def extract_content_lines (content : PyStr) (start_line end_line : Nat) : PyStr :=
  intercalateChar '\n'
    (((splitOnChar '\n' content).drop (start_line - 1)).take (end_line - (start_line - 1)))

/-- Translation of `BaseChunker._generate_chunk_id`: the MD5 hex digest of
`f"{file_path}:{symbol_name}:{line_start}"`.  The `hashlib.md5` digest is an
external deterministic function, passed as the `md5hex` parameter. -/
def generate_chunk_id (md5hex : PyStr → PyStr) (file_path symbol_name : PyStr)
    (line_start : Nat) : PyStr :=
  md5hex (file_path ++ ':' :: symbol_name ++ ':' :: natStr line_start)

/-- Translation of `PythonChunker._build_function_signature`; annotations and
return types are carried already `ast.unparse`d.  The source always writes
`def`, also for async functions. -/
def build_function_signature (f : PyFunc) : PyStr :=
  "def ".data ++ f.name
    ++ '(' :: intercalateStr (", ".data)
        (f.args.map (fun a =>
          a.1 ++ (match a.2 with
                  | some t => ": ".data ++ t
                  | none => [])))
    ++ ')' :: (match f.returns with
               | some r => " -> ".data ++ r
               | none => [])

/-- Translation of `PythonChunker._create_function_chunk`.  The guard models
`if not node.lineno or not node.end_lineno` (zero is the only falsy int; the
CPython AST always emits line numbers ≥ 1). -/
def create_function_chunk (md5hex : PyStr → PyStr) (file_path content : PyStr)
    (f : PyFunc) (body : List PyStmt) : Option ChunkData :=
  if f.lineno = 0 ∨ f.end_lineno = 0 then none
  else some
    { chunk_id := generate_chunk_id md5hex file_path f.name f.lineno
      file_path := file_path
      chunk_type := "function".data
      symbol_name := some f.name
      line_start := f.lineno
      line_end := f.end_lineno
      content := extract_content_lines content f.lineno f.end_lineno
      signature := some (build_function_signature f)
      docstring := some (pyStrOfOpt (docstringOf body))
      file_hash := none }

/-- Method names of a class body (`isinstance(item, (FunctionDef,
AsyncFunctionDef))` over `node.body`). -/
def methodsOf (body : List PyStmt) : List PyStr :=
  body.filterMap (fun s =>
    match s with
    | .functionDef f _ => some f.name
    | _ => none)

/-- Deterministic stand-in for `json.dumps(class_content, indent=2)`: the
external serializer's byte format is not modelled and no claim reads it. -/
def classContent (name : PyStr) (methods : List PyStr) (bases : List PyStr)
    (doc : Option PyStr) : PyStr :=
  "name=".data ++ name
    ++ ";methods=".data ++ intercalateChar ',' methods
    ++ ";inheritance=".data ++ intercalateChar ',' bases
    ++ ";docstring=".data ++ pyStrOfOpt doc

/-- Translation of `PythonChunker._create_class_chunk`. -/
def create_class_chunk (md5hex : PyStr → PyStr) (file_path content : PyStr)
    (c : PyClass) (body : List PyStmt) : Option ChunkData :=
  if c.lineno = 0 ∨ c.end_lineno = 0 then none
  else some
    { chunk_id := generate_chunk_id md5hex file_path c.name c.lineno
      file_path := file_path
      chunk_type := "class".data
      symbol_name := some c.name
      line_start := c.lineno
      line_end := c.end_lineno
      content := classContent c.name (methodsOf body) c.bases (docstringOf body)
      signature := some ("class ".data ++ c.name
        ++ (if c.bases = [] then []
            else '(' :: intercalateStr (", ".data) c.bases ++ [')']))
      docstring := some (pyStrOfOpt (docstringOf body))
      file_hash := none }

/-- The import list of `_create_file_overview`: each `ast.Import` alias name,
and each `ast.ImportFrom` module when truthy. -/
def overviewImports : List PyStmt → List PyStr
  | [] => []
  | .importStmt names :: rest => names ++ overviewImports rest
  | .importFrom (some m) :: rest =>
    if m = [] then overviewImports rest else m :: overviewImports rest
  | .importFrom none :: rest => overviewImports rest
  | _ :: rest => overviewImports rest

/-- Deterministic stand-in for the `json.dumps(overview_content, indent=2)`
serialization (not byte-modelled; no claim reads it). -/
def overviewContent (imports functions classes : List PyStr) (total_lines : Nat) : PyStr :=
  "file_type=python;imports=".data ++ intercalateChar ',' imports
    ++ ";functions=".data ++ intercalateChar ',' functions
    ++ ";classes=".data ++ intercalateChar ',' classes
    ++ ";total_lines=".data ++ natStr total_lines

/-- Translation of `PythonChunker._create_file_overview` over the module's
top-level statements. -/
def create_file_overview (md5hex : PyStr → PyStr) (file_path content : PyStr)
    (body : List PyStmt) : ChunkData :=
  let total := (splitOnChar '\n' content).length
  { chunk_id := generate_chunk_id md5hex file_path ("file_overview".data) 1
    file_path := file_path
    chunk_type := "file_overview".data
    symbol_name := some ("file_overview".data)
    line_start := 1
    line_end := total
    content := overviewContent (overviewImports body)
      (body.filterMap (fun s =>
        match s with
        | .functionDef f _ => some f.name
        | _ => none))
      (body.filterMap (fun s =>
        match s with
        | .classDef c _ => some c.name
        | _ => none))
      total
    signature := none
    docstring := none
    file_hash := none }

/-- The `ast.walk` pass of `chunk_file`: every function/async-function node
becomes a chunk, every class node at column 0 becomes a chunk; bodies are
always descended into.  `ast.walk` is breadth-first while this walk is
depth-first: the multiset of visited declaration nodes is identical, and no
claim concerns the order of declaration chunks. -/
def walkChunks (md5hex : PyStr → PyStr) (file_path content : PyStr) :
    List PyStmt → List ChunkData
  | [] => []
  | .functionDef f body :: rest =>
    (match create_function_chunk md5hex file_path content f body with
     | some ch => [ch]
     | none => [])
      ++ walkChunks md5hex file_path content body
      ++ walkChunks md5hex file_path content rest
  | .classDef c body :: rest =>
    (if c.col_offset = 0 then
       match create_class_chunk md5hex file_path content c body with
       | some ch => [ch]
       | none => []
     else [])
      ++ walkChunks md5hex file_path content body
      ++ walkChunks md5hex file_path content rest
  | .importStmt _ :: rest => walkChunks md5hex file_path content rest
  | .importFrom _ :: rest => walkChunks md5hex file_path content rest
  | .exprConst _ :: rest => walkChunks md5hex file_path content rest
  | .otherStmt :: rest => walkChunks md5hex file_path content rest

/-- Translation of `PythonChunker.chunk_file`.  `ast.parse` is the external
CPython parser — a deterministic function of the content — so the parse
result (module body, or the syntax error message) is a parameter.  On a
syntax error a single `error` chunk is produced; otherwise the file-overview
chunk followed by the declaration chunks. -/
def chunk_file (md5hex : PyStr → PyStr) (file_path content : PyStr)
    (parsed : Except PyStr (List PyStmt)) : List ChunkData :=
  match parsed with
  | .error e =>
    [{ chunk_id := generate_chunk_id md5hex file_path ("syntax_error".data) 1
       file_path := file_path
       chunk_type := "error".data
       symbol_name := some ("syntax_error".data)
       line_start := 1
       line_end := 1
       content := "Syntax error: ".data ++ e
       signature := none
       docstring := none
       file_hash := none }]
  | .ok body =>
    create_file_overview md5hex file_path content body
      :: walkChunks md5hex file_path content body

end PythonChunker

section SearchSymbolsLemmas

open FuzzySymbolSearch

/-- Every result of `search_symbols` originates in a metadata row that passed
the SQL filter, with the score discipline of the requested mode. -/
theorem search_symbols_mem {rows : List ChunkRow} {q : PyStr} {st fp : Option PyStr}
    {fz : Bool} {ms : ℚ} {mr : Nat} {r : SearchResult}
    (hr : r ∈ search_symbols rows q st fp fz ms mr) :
    ∃ row nm, row ∈ rows ∧ row.symbol_name = some nm ∧ nm ≠ [] ∧
      r.chunk_id = row.chunk_id ∧ r.file_path = row.file_path ∧
      r.chunk_type = row.chunk_type ∧ r.symbol_name = row.symbol_name ∧
      (fz = true → ms ≤ r.relevance_score ∧ r.relevance_score = fuzzy_match_score q nm) ∧
      (fz = false → r.relevance_score = 1 ∧ lowerStr q = lowerStr nm) ∧
      (∀ t, st = some t → row.chunk_type = t) ∧
      (∀ p, fp = some p → containsSub p row.file_path = true) := by
  simp only [search_symbols] at hr
  have hr1 : r ∈ sortDescBy (fun x => x.relevance_score)
      ((rows.filter _).filterMap _) := (List.take_sublist _ _).subset hr
  have hr2 := (mem_sortDescBy _).mp hr1
  rcases List.mem_filterMap.mp hr2 with ⟨row, hrowf, hf⟩
  rcases List.mem_filter.mp hrowf with ⟨hrow, hb⟩
  simp only [Bool.and_eq_true] at hb
  obtain ⟨⟨hbsome, hbst⟩, hbfp⟩ := hb
  rcases Option.isSome_iff_exists.mp hbsome with ⟨nm, hsn⟩
  simp only [hsn] at hf
  by_cases hnm : nm = []
  · rw [if_pos hnm] at hf
    cases hf
  rw [if_neg hnm] at hf
  refine ⟨row, nm, hrow, hsn, hnm, ?_⟩
  have hfilters : (∀ t, st = some t → row.chunk_type = t) ∧
      (∀ p, fp = some p → containsSub p row.file_path = true) := by
    constructor
    · intro t hst
      subst hst
      simpa using hbst
    · intro p hfp
      subst hfp
      simpa using hbfp
  cases fz with
  | true =>
    by_cases hsc : fuzzy_match_score q nm < ms
    · rw [if_pos rfl, if_pos hsc] at hf
      cases hf
    · rw [if_pos rfl, if_neg hsc] at hf
      injection hf with hf
      subst hf
      refine ⟨rfl, rfl, rfl, rfl, ?_, ?_, hfilters.1, hfilters.2⟩
      · intro _
        exact ⟨le_of_not_lt hsc, rfl⟩
      · intro h
        cases h
  | false =>
    simp only [Bool.false_eq_true, if_false] at hf
    by_cases heq : lowerStr q ≠ lowerStr nm
    · rw [if_pos heq] at hf
      cases hf
    · rw [if_neg heq] at hf
      injection hf with hf
      subst hf
      refine ⟨rfl, rfl, rfl, rfl, ?_, ?_, hfilters.1, hfilters.2⟩
      · intro h
        cases h
      · intro _
        exact ⟨rfl, not_not.mp heq⟩

/-- The results of `search_symbols` are in descending relevance order. -/
theorem search_symbols_sorted (rows : List ChunkRow) (q : PyStr) (st fp : Option PyStr)
    (fz : Bool) (ms : ℚ) (mr : Nat) :
    (search_symbols rows q st fp fz ms mr).Pairwise
      (fun a b => b.relevance_score ≤ a.relevance_score) := by
  simp only [search_symbols]
  exact (pairwise_sortDescBy _ _).sublist (List.take_sublist _ _)

/-- `search_symbols` returns at most `max_results` results. -/
theorem search_symbols_length (rows : List ChunkRow) (q : PyStr) (st fp : Option PyStr)
    (fz : Bool) (ms : ℚ) (mr : Nat) :
    (search_symbols rows q st fp fz ms mr).length ≤ mr := by
  simp only [search_symbols, List.length_take]
  exact min_le_left _ _

end SearchSymbolsLemmas

/-- CLAIM C3.  `fuzzy_match_score` compares case-insensitively and returns
1.0 on equality of the lowered strings, else 0.9 when the candidate starts
with the query, else 0.7 when the candidate contains the query, else 0.5 when
the query is an in-order subsequence of the candidate's characters, else 0.0;
fuzzy symbol search keeps only candidates scoring at least `min_score`, exact
mode keeps only case-insensitive equality at score 1.0, and both modes sort
by descending score and truncate to `max_results`. -/
theorem C3_fuzzy_match_and_search :
    (∀ q s : PyStr,
      (lowerStr q = lowerStr s → fuzzy_match_score q s = 1) ∧
      (lowerStr q ≠ lowerStr s → (∃ t, lowerStr s = lowerStr q ++ t) →
        fuzzy_match_score q s = mkRat 9 10) ∧
      (lowerStr q ≠ lowerStr s → ¬ (∃ t, lowerStr s = lowerStr q ++ t) →
        (∃ l₁ l₂, lowerStr s = l₁ ++ lowerStr q ++ l₂) →
        fuzzy_match_score q s = mkRat 7 10) ∧
      (lowerStr q ≠ lowerStr s → ¬ (∃ t, lowerStr s = lowerStr q ++ t) →
        ¬ (∃ l₁ l₂, lowerStr s = l₁ ++ lowerStr q ++ l₂) →
        List.Sublist (lowerStr q) (lowerStr s) →
        fuzzy_match_score q s = mkRat 1 2) ∧
      (¬ List.Sublist (lowerStr q) (lowerStr s) → fuzzy_match_score q s = 0)) ∧
    (∀ rows q st fp ms mr r,
      r ∈ FuzzySymbolSearch.search_symbols rows q st fp true ms mr →
        ms ≤ r.relevance_score ∧
        ∃ row nm, row ∈ rows ∧ row.symbol_name = some nm ∧
          r.relevance_score = fuzzy_match_score q nm) ∧
    (∀ rows q st fp ms mr r,
      r ∈ FuzzySymbolSearch.search_symbols rows q st fp false ms mr →
        r.relevance_score = 1 ∧
        ∃ row nm, row ∈ rows ∧ row.symbol_name = some nm ∧
          lowerStr q = lowerStr nm) ∧
    (∀ rows q st fp fz ms mr,
      (FuzzySymbolSearch.search_symbols rows q st fp fz ms mr).Pairwise
        (fun a b => b.relevance_score ≤ a.relevance_score)) ∧
    (∀ rows q st fp fz ms mr,
      (FuzzySymbolSearch.search_symbols rows q st fp fz ms mr).length ≤ mr) := by
  refine ⟨?_, ?_, ?_, fun rows q st fp fz ms mr => search_symbols_sorted rows q st fp fz ms mr,
    fun rows q st fp fz ms mr => search_symbols_length rows q st fp fz ms mr⟩
  · intro q s
    refine ⟨?_, ?_, ?_, ?_, ?_⟩
    · intro heq
      simp only [fuzzy_match_score]
      rw [if_pos heq]
    · intro hne hsw
      have hb : isPrefixList (lowerStr q) (lowerStr s) = true :=
        (isPrefixList_iff _ _).mpr hsw
      simp only [fuzzy_match_score]
      rw [if_neg hne, if_pos hb]
    · intro hne hsw hct
      have hb : ¬ isPrefixList (lowerStr q) (lowerStr s) = true :=
        fun h => hsw ((isPrefixList_iff _ _).mp h)
      have hc : containsSub (lowerStr q) (lowerStr s) = true :=
        (containsSub_iff _ _).mpr hct
      simp only [fuzzy_match_score]
      rw [if_neg hne, if_neg hb, if_pos hc]
    · intro hne hsw hct hsub
      have hb : ¬ isPrefixList (lowerStr q) (lowerStr s) = true :=
        fun h => hsw ((isPrefixList_iff _ _).mp h)
      have hc : ¬ containsSub (lowerStr q) (lowerStr s) = true :=
        fun h => hct ((containsSub_iff _ _).mp h)
      have hq : subseqCount (lowerStr q) 0 (lowerStr s) = (lowerStr q).length :=
        (subseqCount_eq_length_iff _ _).mpr hsub
      simp only [fuzzy_match_score]
      rw [if_neg hne, if_neg hb, if_neg hc, if_pos hq]
    · intro hnsub
      have hne : lowerStr q ≠ lowerStr s := by
        intro h
        exact hnsub (h ▸ List.Sublist.refl _)
      have hb : ¬ isPrefixList (lowerStr q) (lowerStr s) = true := by
        intro h
        rcases (isPrefixList_iff _ _).mp h with ⟨t, ht⟩
        exact hnsub (ht ▸ List.sublist_append_left _ _)
      have hc : ¬ containsSub (lowerStr q) (lowerStr s) = true := by
        intro h
        rcases (containsSub_iff _ _).mp h with ⟨l₁, l₂, hl⟩
        refine hnsub ?_
        rw [hl, List.append_assoc]
        exact (List.sublist_append_left _ _).trans (List.sublist_append_right _ _)
      have hq : ¬ subseqCount (lowerStr q) 0 (lowerStr s) = (lowerStr q).length :=
        fun h => hnsub ((subseqCount_eq_length_iff _ _).mp h)
      simp only [fuzzy_match_score]
      rw [if_neg hne, if_neg hb, if_neg hc, if_neg hq]
  · intro rows q st fp ms mr r hr
    rcases search_symbols_mem hr with
      ⟨row, nm, hrow, hsn, _, _, _, _, _, hfz, _, _, _⟩
    rcases hfz rfl with ⟨hms, hsc⟩
    exact ⟨hms, row, nm, hrow, hsn, hsc⟩
  · intro rows q st fp ms mr r hr
    rcases search_symbols_mem hr with
      ⟨row, nm, hrow, hsn, _, _, _, _, _, _, hfz, _, _⟩
    rcases hfz rfl with ⟨hsc, heq⟩
    exact ⟨hsc, row, nm, hrow, hsn, heq⟩

/-- Witness for C3, at the spec's own example: against `getUser` the
candidates `getUser`, `getUserById`, `UserGetter`, `zzz` score
1.0, 0.9, 0.0, 0.0. -/
theorem C3_witness :
    fuzzy_match_score ("getUser".data) ("getUser".data) = 1 ∧
    fuzzy_match_score ("getUser".data) ("getUserById".data) = mkRat 9 10 ∧
    fuzzy_match_score ("getUser".data) ("UserGetter".data) = 0 ∧
    fuzzy_match_score ("getUser".data) ("zzz".data) = 0 := by
  refine ⟨?_, ?_, ?_, ?_⟩
  · exact (C3_fuzzy_match_and_search.1 ("getUser".data) ("getUser".data)).1 (by decide)
  · exact (C3_fuzzy_match_and_search.1 ("getUser".data) ("getUserById".data)).2.1
      (by decide) ⟨"byid".data, by decide⟩
  · exact (C3_fuzzy_match_and_search.1 ("getUser".data) ("UserGetter".data)).2.2.2.2
      (by decide)
  · exact (C3_fuzzy_match_and_search.1 ("getUser".data) ("zzz".data)).2.2.2.2
      (by decide)

/-- Stored metadata row of a `file_overview` chunk, used by claim C4. -/
def c4Row : ChunkRow :=
  { chunk_id := "c0".data
    file_path := "a.py".data
    chunk_type := "file_overview".data
    symbol_name := some ("file_overview".data)
    line_start := 1
    line_end := 10
    signature := none
    docstring := none
    content := []
    file_hash := "h".data
    faiss_index := 0 }

/-- The search result produced from `c4Row` by a fuzzy symbol search for
`file_overview`. -/
def c4Result : SearchResult :=
  { chunk_id := "c0".data
    file_path := "a.py".data
    symbol_name := some ("file_overview".data)
    line_start := 1
    line_end := 10
    signature := none
    docstring := none
    relevance_score := 1
    chunk_type := "file_overview".data }

/-- CLAIM C4, counterexample.  The SQL filter of `search_symbols` is only
`symbol_name IS NOT NULL`, not `chunk_type IN (function, class, interface)`:
a `file_overview` chunk row is returned by a fuzzy symbol search, refuting
the claim that every symbol-search result has chunk type function, class or
interface. -/
theorem C4_counterexample :
    ¬ (∀ r ∈ FuzzySymbolSearch.search_symbols [c4Row]
        ("file_overview".data) none none true (mkRat 1 2) 20,
      r.chunk_type = "function".data ∨ r.chunk_type = "class".data ∨
        r.chunk_type = "interface".data) := by
  decide

/-- CLAIM C4, amended.  Every fuzzy- or exact-symbol search result comes from
a metadata row whose `symbol_name` is non-null (and which passes the optional
`symbol_type` and `file_path` filters); the chunk type itself is not
restricted, so overview/file/error chunks with a symbol name can be
returned. -/
theorem C4_symbol_search_source_rows (rows : List ChunkRow) (q : PyStr)
    (st fp : Option PyStr) (fz : Bool) (ms : ℚ) (mr : Nat) (r : SearchResult)
    (hr : r ∈ FuzzySymbolSearch.search_symbols rows q st fp fz ms mr) :
    ∃ row, row ∈ rows ∧ row.symbol_name ≠ none ∧
      r.chunk_id = row.chunk_id ∧ r.chunk_type = row.chunk_type ∧
      r.file_path = row.file_path ∧
      (∀ t, st = some t → row.chunk_type = t) ∧
      (∀ p, fp = some p → containsSub p row.file_path = true) := by
  rcases search_symbols_mem hr with
    ⟨row, nm, hrow, hsn, _, hid, hfpath, hct, _, _, _, hst, hfp⟩
  exact ⟨row, hrow, by simp [hsn], hid, hct, hfpath, hst, hfp⟩

/-- Witness for the amended C4, at the counterexample row: the returned
`file_overview` result indeed originates from the stored row. -/
theorem C4_witness :
    ∃ row, row ∈ [c4Row] ∧ row.symbol_name ≠ none ∧
      c4Result.chunk_id = row.chunk_id ∧ c4Result.chunk_type = row.chunk_type ∧
      c4Result.file_path = row.file_path ∧
      (∀ t, (none : Option PyStr) = some t → row.chunk_type = t) ∧
      (∀ p, (none : Option PyStr) = some p → containsSub p row.file_path = true) :=
  C4_symbol_search_source_rows [c4Row] ("file_overview".data) none none true
    (mkRat 1 2) 20 c4Result (by decide)

theorem pairwise_filterMap {α β : Type} {R : α → α → Prop} {S : β → β → Prop}
    (f : α → Option β)
    (hpres : ∀ a b x y, R a b → f a = some x → f b = some y → S x y) :
    ∀ {l : List α}, l.Pairwise R → (l.filterMap f).Pairwise S := by
  intro l hl
  induction hl with
  | nil => simp
  | @cons a l hhead _ ih =>
    cases hfa : f a with
    | none => simpa [List.filterMap_cons, hfa] using ih
    | some x =>
      simp only [List.filterMap_cons, hfa]
      refine List.pairwise_cons.mpr ⟨?_, ih⟩
      intro y hy
      rcases List.mem_filterMap.mp hy with ⟨b, hb, hfb⟩
      exact hpres a b x y (hhead b hb) hfa hfb

/-- Every result of `VectorStore.search` resolves through a metadata row of
the store (this is how orphaned vectors are filtered), and passes the
optional file-pattern filter. -/
theorem vector_search_mem {normalize : Vec → Vec} {s : StoreState} {q : Vec}
    {k : Nat} {fp : Option PyStr} {r : SearchResult}
    (hr : r ∈ VectorStore.search normalize s q k fp) :
    ∃ row, row ∈ s.chunks ∧ r.chunk_id = row.chunk_id ∧
      r.file_path = row.file_path ∧ r.chunk_type = row.chunk_type ∧
      (∀ p, fp = some p → containsSub p row.file_path = true) := by
  by_cases h0 : s.index.length = 0
  · simp [VectorStore.search, h0] at hr
  · simp only [VectorStore.search, if_neg h0] at hr
    have hr' := (List.take_sublist _ _).subset hr
    rcases List.mem_filterMap.mp hr' with ⟨h, _, hf⟩
    cases fp with
    | none =>
      cases hfind : List.find? (fun row => decide (row.faiss_index = h.2)) s.chunks with
      | none => simp [hfind] at hf
      | some row =>
        have hrowmem : row ∈ s.chunks := List.mem_of_find?_eq_some hfind
        simp only [hfind] at hf
        injection hf with hf
        subst hf
        exact ⟨row, hrowmem, rfl, rfl, rfl, fun p hp => by cases hp⟩
    | some p =>
      cases hfind : List.find? (fun row => decide (row.faiss_index = h.2)) s.chunks with
      | none => simp [hfind] at hf
      | some row =>
        have hrowmem : row ∈ s.chunks := List.mem_of_find?_eq_some hfind
        simp only [hfind] at hf
        by_cases hc : containsSub p row.file_path = true
        · rw [if_pos hc] at hf
          injection hf with hf
          subst hf
          refine ⟨row, hrowmem, rfl, rfl, rfl, ?_⟩
          intro p' hp'
          injection hp' with hp'
          exact hp' ▸ hc
        · rw [if_neg hc] at hf
          cases hf

/-- CLAIM C2.  `VectorStore.search` retrieves at most
`min(2·top_k, ntotal)` nearest neighbours by inner product on the normalized
query, discards hits whose index row resolves to no metadata row and hits
failing the substring file filter, and returns at most `top_k` surviving
results in descending relevance order; on an empty index it returns the empty
list. -/
theorem C2_vector_search (normalize : Vec → Vec) (s : StoreState) (q : Vec)
    (k : Nat) (fp : Option PyStr) (hk : 1 ≤ k) :
    (VectorStore.search normalize s q k fp).length ≤ k ∧
    (VectorStore.search normalize s q k fp).length ≤ min (2 * k) s.index.length ∧
    (VectorStore.search normalize s q k fp).Pairwise
      (fun a b => b.relevance_score ≤ a.relevance_score) ∧
    (∀ r ∈ VectorStore.search normalize s q k fp,
      ∃ row, row ∈ s.chunks ∧ r.chunk_id = row.chunk_id ∧
        r.file_path = row.file_path ∧ r.chunk_type = row.chunk_type ∧
        (∀ p, fp = some p → containsSub p row.file_path = true)) ∧
    (s.index = [] → VectorStore.search normalize s q k fp = []) := by
  have hscore : ∀ (h : ℚ × Nat) (x : SearchResult),
      (match s.chunks.find? (fun row => decide (row.faiss_index = h.2)) with
        | none => none
        | some row =>
          match fp with
          | some p =>
            if containsSub p row.file_path then some (rowToResult row h.1) else none
          | none => some (rowToResult row h.1)) = some x →
      x.relevance_score = h.1 := by
    intro h x hf
    cases fp with
    | none =>
      cases hfind : List.find? (fun row => decide (row.faiss_index = h.2)) s.chunks with
      | none => simp [hfind] at hf
      | some row =>
        simp only [hfind] at hf
        injection hf with hf
        subst hf
        rfl
    | some p =>
      cases hfind : List.find? (fun row => decide (row.faiss_index = h.2)) s.chunks with
      | none => simp [hfind] at hf
      | some row =>
        simp only [hfind] at hf
        by_cases hc : containsSub p row.file_path = true
        · rw [if_pos hc] at hf
          injection hf with hf
          subst hf
          rfl
        · rw [if_neg hc] at hf
          cases hf
  refine ⟨?_, ?_, ?_, ?_, ?_⟩
  · by_cases h0 : s.index.length = 0
    · simp [VectorStore.search, h0]
    · simp only [VectorStore.search, if_neg h0, List.length_take]
      exact min_le_left _ _
  · by_cases h0 : s.index.length = 0
    · simp [VectorStore.search, h0]
    · simp only [VectorStore.search, if_neg h0]
      refine le_trans (List.take_sublist _ _).length_le
        (le_trans (List.length_filterMap_le _ _) ?_)
      simp only [faissTop, List.length_take]
      rw [Nat.mul_comm 2 k]
      exact min_le_left _ _
  · by_cases h0 : s.index.length = 0
    · simp [VectorStore.search, h0]
    · simp only [VectorStore.search, if_neg h0]
      refine List.Pairwise.sublist (List.take_sublist _ _) ?_
      refine @pairwise_filterMap _ _ (fun a b : ℚ × Nat => b.1 ≤ a.1) _ _ ?_ _ ?_
      · intro a b x y hab hfa hfb
        rw [hscore a x hfa, hscore b y hfb]
        exact hab
      · simp only [faissTop]
        exact List.Pairwise.sublist (List.take_sublist _ _) (pairwise_sortDescBy _ _)
  · intro r hr
    exact vector_search_mem hr
  · intro hidx
    simp [VectorStore.search, hidx]

/-- Metadata row used by the C2 witness. -/
def c2Row : ChunkRow :=
  { chunk_id := "c2".data
    file_path := "a.py".data
    chunk_type := "function".data
    symbol_name := some ("foo".data)
    line_start := 1
    line_end := 2
    signature := none
    docstring := none
    content := []
    file_hash := "h".data
    faiss_index := 0 }

/-- One-row, one-vector store used by the C2 witness. -/
def c2State : StoreState :=
  { chunks := [c2Row], file_hashes := [], index := [[1]] }

/-- Witness for C2 on a concrete one-vector store with `top_k = 1`. -/
theorem C2_witness :
    (VectorStore.search id c2State [1] 1 none).length ≤ 1 ∧
    (VectorStore.search id c2State [1] 1 none).length ≤
      min (2 * 1) c2State.index.length ∧
    (VectorStore.search id c2State [1] 1 none).Pairwise
      (fun a b => b.relevance_score ≤ a.relevance_score) ∧
    (∀ r ∈ VectorStore.search id c2State [1] 1 none,
      ∃ row, row ∈ c2State.chunks ∧ r.chunk_id = row.chunk_id ∧
        r.file_path = row.file_path ∧ r.chunk_type = row.chunk_type ∧
        (∀ p, (none : Option PyStr) = some p → containsSub p row.file_path = true)) ∧
    (c2State.index = [] → VectorStore.search id c2State [1] 1 none = []) :=
  C2_vector_search id c2State [1] 1 none (by decide)

/-- CLAIM C1, amended.  `remove_file_chunks(f)` deletes exactly the chunk
rows and the file-hash record with path `f`, returns the number of chunk rows
deleted, leaves every other metadata row and the embedding index unchanged
(so the `get_stats` vector count does not decrease), and afterwards no
metadata-backed search — vector search or symbol search — returns a result
with `file_path = f`.  (The original claim said "no search of any mode";
text-mode search reads the filesystem, not the store, and is the
counterexample.) -/
theorem C1_remove_file_chunks_frame (s : StoreState) (f : PyStr) :
    (VectorStore.remove_file_chunks s f).2.index = s.index ∧
    (VectorStore.get_stats (VectorStore.remove_file_chunks s f).2).faiss_vectors =
      (VectorStore.get_stats s).faiss_vectors ∧
    (VectorStore.remove_file_chunks s f).1 =
      (s.chunks.filter (fun r => decide (r.file_path = f))).length ∧
    (∀ row, row ∈ (VectorStore.remove_file_chunks s f).2.chunks ↔
      row ∈ s.chunks ∧ row.file_path ≠ f) ∧
    (∀ fh, fh ∈ (VectorStore.remove_file_chunks s f).2.file_hashes ↔
      fh ∈ s.file_hashes ∧ fh.file_path ≠ f) ∧
    (∀ normalize q k fp r,
      r ∈ VectorStore.search normalize (VectorStore.remove_file_chunks s f).2 q k fp →
        r.file_path ≠ f) ∧
    (∀ q st fp fz ms mr r,
      r ∈ FuzzySymbolSearch.search_symbols
          (VectorStore.remove_file_chunks s f).2.chunks q st fp fz ms mr →
        r.file_path ≠ f) := by
  have hchunks : ∀ row, row ∈ (VectorStore.remove_file_chunks s f).2.chunks ↔
      row ∈ s.chunks ∧ row.file_path ≠ f := by
    intro row
    simp [VectorStore.remove_file_chunks, List.mem_filter]
  refine ⟨rfl, rfl, rfl, hchunks, ?_, ?_, ?_⟩
  · intro fh
    simp [VectorStore.remove_file_chunks, List.mem_filter]
  · intro normalize q k fp r hr
    rcases vector_search_mem hr with ⟨row, hrow, _, hfpath, _, _⟩
    rw [hfpath]
    exact ((hchunks row).mp hrow).2
  · intro q st fp fz ms mr r hr
    rcases search_symbols_mem hr with
      ⟨row, nm, hrow, _, _, _, hfpath, _, _, _, _, _, _⟩
    rw [hfpath]
    exact ((hchunks row).mp hrow).2

/-- Chunk row for `a.py` in the C1 scenario. -/
def c1RowA : ChunkRow :=
  { chunk_id := "ca".data
    file_path := "a.py".data
    chunk_type := "function".data
    symbol_name := some ("hello".data)
    line_start := 1
    line_end := 1
    signature := none
    docstring := none
    content := []
    file_hash := "ha".data
    faiss_index := 0 }

/-- Chunk row for `b.py` in the C1 scenario. -/
def c1RowB : ChunkRow :=
  { chunk_id := "cb".data
    file_path := "b.py".data
    chunk_type := "function".data
    symbol_name := some ("hello".data)
    line_start := 1
    line_end := 1
    signature := none
    docstring := none
    content := []
    file_hash := "hb".data
    faiss_index := 1 }

/-- Two-file store before the C1 removal. -/
def c1State : StoreState :=
  { chunks := [c1RowA, c1RowB]
    file_hashes :=
      [{ file_path := "a.py".data, file_hash := "ha".data, chunk_count := 1 },
       { file_path := "b.py".data, file_hash := "hb".data, chunk_count := 1 }]
    index := [[1], [0]] }

/-- The store after `remove_file_chunks("a.py")`. -/
def c1After : StoreState := (VectorStore.remove_file_chunks c1State ("a.py".data)).2

/-- The filesystem of the C1 scenario: `a.py` still exists on disk and
contains the query text. -/
def c1Files : List (PyStr × List PyStr) := [("a.py".data, ["hello world".data])]

/-- The symbol-search result for `b.py` surviving the C1 removal. -/
def c1ResultB : SearchResult :=
  { chunk_id := "cb".data
    file_path := "b.py".data
    symbol_name := some ("hello".data)
    line_start := 1
    line_end := 1
    signature := none
    docstring := none
    relevance_score := 1
    chunk_type := "function".data }

/-- CLAIM C1, counterexample to "after the call no search of any mode returns
a result with `file_path == f`": after removing `a.py` from the store, no
metadata row for `a.py` remains, yet a text-mode search (which scans the
filesystem directly, and `a.py` still exists on disk) returns a result with
`file_path = "a.py"`. -/
theorem C1_counterexample :
    c1After.chunks.filter (fun r => decide (r.file_path = "a.py".data)) = [] ∧
    ∃ r ∈ enhanced_search_text c1Files [] ("hello".data) none false 10,
      r.file_path = "a.py".data := by
  decide

/-- Witness for the amended C1, on the two-file store: the index is
untouched, the stats vector count is preserved, the `b.py` row survives, and
a fuzzy symbol search after the removal still returns `b.py`'s result, whose
path differs from the removed one. -/
theorem C1_witness :
    c1After.index = c1State.index ∧
    (VectorStore.get_stats c1After).faiss_vectors =
      (VectorStore.get_stats c1State).faiss_vectors ∧
    (c1RowB ∈ c1After.chunks ↔ c1RowB ∈ c1State.chunks ∧
      c1RowB.file_path ≠ "a.py".data) ∧
    c1ResultB.file_path ≠ "a.py".data :=
  ⟨(C1_remove_file_chunks_frame c1State ("a.py".data)).1,
   (C1_remove_file_chunks_frame c1State ("a.py".data)).2.1,
   (C1_remove_file_chunks_frame c1State ("a.py".data)).2.2.2.1 c1RowB,
   (C1_remove_file_chunks_frame c1State ("a.py".data)).2.2.2.2.2.2
     ("hello".data) none none true (mkRat 1 2) 10 c1ResultB (by decide)⟩

/-- Primary-key lookup in the chunks table (`SELECT ... WHERE chunk_id = ?`
with `fetchone`). -/
def lookupChunk (table : List ChunkRow) (id : PyStr) : Option ChunkRow :=
  table.find? (fun r => decide (r.chunk_id = id))

theorem find?_map_replace_eq {t : List ChunkRow} {row : ChunkRow}
    (h : ∃ r ∈ t, r.chunk_id = row.chunk_id) :
    (t.map (fun r => if r.chunk_id = row.chunk_id then row else r)).find?
      (fun r => decide (r.chunk_id = row.chunk_id)) = some row := by
  induction t with
  | nil => rcases h with ⟨r, hr, _⟩; cases hr
  | cons r0 rest ih =>
    by_cases h0 : r0.chunk_id = row.chunk_id
    · simp [List.find?, if_pos h0]
    · rcases h with ⟨r, hr, hrid⟩
      rcases List.mem_cons.mp hr with rfl | hr
      · exact absurd hrid h0
      · simp only [List.map_cons, if_neg h0, List.find?]
        rw [decide_eq_false h0]
        exact ih ⟨r, hr, hrid⟩

theorem find?_map_replace_ne {t : List ChunkRow} {row : ChunkRow} {id : PyStr}
    (hid : id ≠ row.chunk_id) :
    (t.map (fun r => if r.chunk_id = row.chunk_id then row else r)).find?
        (fun r => decide (r.chunk_id = id)) =
      t.find? (fun r => decide (r.chunk_id = id)) := by
  induction t with
  | nil => rfl
  | cons r0 rest ih =>
    by_cases h0 : r0.chunk_id = row.chunk_id
    · have hr0 : ¬ r0.chunk_id = id := by
        rw [h0]
        exact fun h => hid h.symm
      have hrow : ¬ row.chunk_id = id := fun h => hid h.symm
      simp only [List.map_cons, if_pos h0, List.find?]
      rw [decide_eq_false hrow, decide_eq_false hr0]
      exact ih
    · simp only [List.map_cons, if_neg h0, List.find?]
      cases hd : decide (r0.chunk_id = id) with
      | true => rfl
      | false => exact ih

theorem find?_append_single_eq {t : List ChunkRow} {row : ChunkRow}
    (hnone : ∀ r ∈ t, ¬ r.chunk_id = row.chunk_id) :
    (t ++ [row]).find? (fun r => decide (r.chunk_id = row.chunk_id)) = some row := by
  induction t with
  | nil => simp [List.find?]
  | cons r0 rest ih =>
    simp only [List.cons_append, List.find?]
    rw [decide_eq_false (hnone r0 (List.mem_cons_self r0 rest))]
    exact ih (fun r hr => hnone r (List.mem_cons_of_mem r0 hr))

theorem find?_append_single_ne {t : List ChunkRow} {row : ChunkRow} {id : PyStr}
    (hid : id ≠ row.chunk_id) :
    (t ++ [row]).find? (fun r => decide (r.chunk_id = id)) =
      t.find? (fun r => decide (r.chunk_id = id)) := by
  induction t with
  | nil =>
    simp only [List.nil_append, List.find?]
    rw [decide_eq_false (fun h => hid h.symm)]
  | cons r0 rest ih =>
    simp only [List.cons_append, List.find?]
    cases hd : decide (r0.chunk_id = id) with
    | true => rfl
    | false => exact ih

theorem lookup_upsertChunk (t : List ChunkRow) (row : ChunkRow) (id : PyStr) :
    lookupChunk (VectorStore.upsertChunk t row) id =
      if id = row.chunk_id then some row else lookupChunk t id := by
  unfold VectorStore.upsertChunk lookupChunk
  by_cases hany : t.any (fun r => decide (r.chunk_id = row.chunk_id)) = true
  · rw [if_pos hany]
    by_cases hid : id = row.chunk_id
    · subst hid
      rcases List.any_eq_true.mp hany with ⟨r, hr, hrid⟩
      rw [if_pos rfl]
      exact find?_map_replace_eq ⟨r, hr, of_decide_eq_true hrid⟩
    · rw [if_neg hid]
      exact find?_map_replace_ne hid
  · rw [if_neg hany]
    have hnone : ∀ r ∈ t, ¬ r.chunk_id = row.chunk_id := by
      intro r hr hrid
      exact hany (List.any_eq_true.mpr ⟨r, hr, decide_eq_true hrid⟩)
    by_cases hid : id = row.chunk_id
    · subst hid
      rw [if_pos rfl]
      exact find?_append_single_eq hnone
    · rw [if_neg hid]
      exact find?_append_single_ne hid

theorem lookup_foldl_upsert_not_mem {rows : List ChunkRow} {t : List ChunkRow}
    {id : PyStr} (h : ∀ r ∈ rows, r.chunk_id ≠ id) :
    lookupChunk (rows.foldl VectorStore.upsertChunk t) id = lookupChunk t id := by
  induction rows generalizing t with
  | nil => rfl
  | cons r0 rest ih =>
    simp only [List.foldl_cons]
    rw [ih (fun r hr => h r (List.mem_cons_of_mem r0 hr)),
      lookup_upsertChunk,
      if_neg (fun he => h r0 (List.mem_cons_self r0 rest) he.symm)]

theorem lookup_foldl_upsert_mem {rows : List ChunkRow} {t : List ChunkRow}
    {r : ChunkRow} (hnd : (rows.map (fun x => x.chunk_id)).Nodup) (hr : r ∈ rows) :
    lookupChunk (rows.foldl VectorStore.upsertChunk t) r.chunk_id = some r := by
  induction rows generalizing t with
  | nil => cases hr
  | cons r0 rest ih =>
    simp only [List.map_cons, List.nodup_cons] at hnd
    rcases List.mem_cons.mp hr with rfl | hmem
    · simp only [List.foldl_cons]
      rw [lookup_foldl_upsert_not_mem, lookup_upsertChunk, if_pos rfl]
      intro x hx hxid
      exact hnd.1 (hxid ▸ List.mem_map_of_mem (fun y => y.chunk_id) hx)
    · simp only [List.foldl_cons]
      exact ih hnd.2 hmem

theorem mem_upsertChunk {t : List ChunkRow} {row x : ChunkRow}
    (hx : x ∈ VectorStore.upsertChunk t row) : x ∈ t ∨ x = row := by
  unfold VectorStore.upsertChunk at hx
  by_cases hany : t.any (fun r => decide (r.chunk_id = row.chunk_id)) = true
  · rw [if_pos hany] at hx
    rcases List.mem_map.mp hx with ⟨a, ha, hax⟩
    by_cases h0 : a.chunk_id = row.chunk_id
    · rw [if_pos h0] at hax
      exact Or.inr hax.symm
    · rw [if_neg h0] at hax
      exact Or.inl (hax ▸ ha)
  · rw [if_neg hany] at hx
    rcases List.mem_append.mp hx with h | h
    · exact Or.inl h
    · exact Or.inr (List.mem_singleton.mp h)

theorem mem_foldl_upsert {rows : List ChunkRow} {t : List ChunkRow} {x : ChunkRow}
    (hx : x ∈ rows.foldl VectorStore.upsertChunk t) : x ∈ t ∨ x ∈ rows := by
  induction rows generalizing t with
  | nil => exact Or.inl hx
  | cons r0 rest ih =>
    simp only [List.foldl_cons] at hx
    rcases ih hx with h | h
    · rcases mem_upsertChunk h with h' | h'
      · exact Or.inl h'
      · exact Or.inr (h' ▸ List.mem_cons_self r0 rest)
    · exact Or.inr (List.mem_cons_of_mem r0 h)

theorem fst_lt_of_mem_enumFrom {α : Type} {n : Nat} {l : List α} {p : Nat × α}
    (h : p ∈ l.enumFrom n) : n ≤ p.1 ∧ p.1 < n + l.length := by
  induction l generalizing n with
  | nil => cases h
  | cons a rest ih =>
    rcases List.mem_cons.mp h with rfl | h
    · simp
    · rcases ih h with ⟨h1, h2⟩
      constructor
      · omega
      · simp only [List.length_cons]
        omega

theorem buildRows_length (calcHash : PyStr → PyStr) (N : Nat)
    (chunks : List ChunkData) :
    (VectorStore.buildRows calcHash N chunks).length = chunks.length := by
  simp [VectorStore.buildRows]

theorem buildRows_map_chunk_id (calcHash : PyStr → PyStr) (N : Nat)
    (chunks : List ChunkData) :
    (VectorStore.buildRows calcHash N chunks).map (fun r => r.chunk_id) =
      chunks.map (fun c => c.chunk_id) := by
  simp only [VectorStore.buildRows, List.map_map]
  rw [show ((fun r : ChunkRow => r.chunk_id) ∘
      fun p : Nat × ChunkData => VectorStore.chunkRowOf calcHash (N + p.1) p.2) =
      (fun c : ChunkData => c.chunk_id) ∘ Prod.snd from rfl]
  rw [← List.map_map, List.enum_map_snd]

theorem buildRows_getElem (calcHash : PyStr → PyStr) (N : Nat)
    (chunks : List ChunkData) (i : Nat) (hi : i < chunks.length) :
    (VectorStore.buildRows calcHash N chunks).get
        ⟨i, by rw [buildRows_length]; exact hi⟩ =
      VectorStore.chunkRowOf calcHash (N + i) (chunks.get ⟨i, hi⟩) := by
  simp [VectorStore.buildRows, List.get_eq_getElem, List.getElem_map,
    List.getElem_enum]

theorem buildRows_faiss_bound {calcHash : PyStr → PyStr} {N : Nat}
    {chunks : List ChunkData} {row : ChunkRow}
    (h : row ∈ VectorStore.buildRows calcHash N chunks) :
    N ≤ row.faiss_index ∧ row.faiss_index < N + chunks.length := by
  rcases List.mem_map.mp h with ⟨p, hp, rfl⟩
  have hb := fst_lt_of_mem_enumFrom (n := 0) hp
  simp only [VectorStore.chunkRowOf]
  omega

/-- CLAIM C10.  `add_chunks` raises the `ValueError` (before mutating
anything) exactly when the chunk and embedding counts differ; otherwise,
with `N` the prior vector count, the i-th chunk's metadata row is written
with `faiss_index = N + i`, the index grows by exactly the batch, and every
row written by the call references the contiguous block `[N, N + batch)`.
The `Nodup` hypotheses express the `chunk_id` primary-key discipline (within
the batch and in the pre-state table). -/
theorem C10_add_chunks (normalize : Vec → Vec) (calcHash : PyStr → PyStr)
    (s : StoreState) (chunks : List ChunkData) (embeddings : List Vec) :
    (chunks.length ≠ embeddings.length →
      VectorStore.add_chunks normalize calcHash s chunks embeddings =
        (s, some ("Number of chunks must match number of embeddings".data))) ∧
    (chunks.length = embeddings.length →
      (chunks.map (fun c => c.chunk_id)).Nodup →
      ((VectorStore.add_chunks normalize calcHash s chunks embeddings).2 = none ∧
       (VectorStore.add_chunks normalize calcHash s chunks embeddings).1.index =
         s.index ++ embeddings.map normalize ∧
       (VectorStore.add_chunks normalize calcHash s chunks embeddings).1.index.length =
         s.index.length + chunks.length ∧
       (∀ i (hi : i < chunks.length),
         lookupChunk
             (VectorStore.add_chunks normalize calcHash s chunks embeddings).1.chunks
             (chunks.get ⟨i, hi⟩).chunk_id =
           some (VectorStore.chunkRowOf calcHash (s.index.length + i)
             (chunks.get ⟨i, hi⟩)) ∧
         (VectorStore.chunkRowOf calcHash (s.index.length + i)
             (chunks.get ⟨i, hi⟩)).faiss_index = s.index.length + i) ∧
       (∀ row,
         row ∈ (VectorStore.add_chunks normalize calcHash s chunks embeddings).1.chunks →
         row ∉ s.chunks →
         s.index.length ≤ row.faiss_index ∧
           row.faiss_index < s.index.length + chunks.length))) := by
  constructor
  · intro hne
    simp only [VectorStore.add_chunks, if_pos hne]
  · intro hlen hnd
    have hcond : ¬ (chunks.length ≠ embeddings.length) := fun h => h hlen
    have hadd : VectorStore.add_chunks normalize calcHash s chunks embeddings =
        ({ chunks := (VectorStore.buildRows calcHash s.index.length chunks).foldl
             VectorStore.upsertChunk s.chunks
           file_hashes := (VectorStore.collectFileChunks
             (VectorStore.buildRows calcHash s.index.length chunks)).foldl
             VectorStore.upsertFileHash s.file_hashes
           index := s.index ++ embeddings.map normalize }, none) := by
      simp only [VectorStore.add_chunks, if_neg hcond]
    rw [hadd]
    have hrowsnd : ((VectorStore.buildRows calcHash s.index.length chunks).map
        (fun r => r.chunk_id)).Nodup := by
      rw [buildRows_map_chunk_id]
      exact hnd
    refine ⟨rfl, rfl, ?_, ?_, ?_⟩
    · simp only [List.length_append, List.length_map]
      omega
    · intro i hi
      have hib : i < (VectorStore.buildRows calcHash s.index.length chunks).length := by
        rw [buildRows_length]
        exact hi
      have hmem : VectorStore.chunkRowOf calcHash (s.index.length + i)
          (chunks.get ⟨i, hi⟩) ∈ VectorStore.buildRows calcHash s.index.length chunks := by
        rw [← buildRows_getElem calcHash s.index.length chunks i hi]
        exact List.get_mem _ _ _
      have hlook := lookup_foldl_upsert_mem (t := s.chunks) hrowsnd hmem
      exact ⟨hlook, rfl⟩
    · intro row hrow hnotold
      rcases mem_foldl_upsert hrow with h | h
      · exact absurd h hnotold
      · exact buildRows_faiss_bound h

/-- Chunk used by the C10 witness. -/
def c10Chunk : ChunkData :=
  { chunk_id := "cid".data
    file_path := "a.py".data
    chunk_type := "function".data
    symbol_name := some ("foo".data)
    line_start := 1
    line_end := 2
    content := "def foo(): pass".data
    signature := none
    docstring := none
    file_hash := some ("h".data) }

/-- Witness for C10: the mismatch branch errors without touching the state,
and the matched branch stores the single chunk at FAISS row 0 with its
metadata row retrievable by primary key. -/
theorem C10_witness :
    (VectorStore.add_chunks id id
        { chunks := [], file_hashes := [], index := [] } [c10Chunk] [] =
      ({ chunks := [], file_hashes := [], index := [] },
        some ("Number of chunks must match number of embeddings".data))) ∧
    ((VectorStore.add_chunks id id
        { chunks := [], file_hashes := [], index := [] } [c10Chunk] [[1]]).2 = none ∧
     (VectorStore.add_chunks id id
        { chunks := [], file_hashes := [], index := [] } [c10Chunk] [[1]]).1.index =
       ([] : List Vec) ++ [[1]].map id ∧
     lookupChunk (VectorStore.add_chunks id id
         { chunks := [], file_hashes := [], index := [] } [c10Chunk] [[1]]).1.chunks
         (([c10Chunk].get ⟨0, by decide⟩).chunk_id) =
       some (VectorStore.chunkRowOf id
         (({ chunks := [], file_hashes := [], index := [] } : StoreState).index.length + 0)
         ([c10Chunk].get ⟨0, by decide⟩))) :=
  ⟨(C10_add_chunks id id { chunks := [], file_hashes := [], index := [] }
      [c10Chunk] []).1 (by decide),
   ((C10_add_chunks id id { chunks := [], file_hashes := [], index := [] }
      [c10Chunk] [[1]]).2 (by decide) (by decide)).1,
   ((C10_add_chunks id id { chunks := [], file_hashes := [], index := [] }
      [c10Chunk] [[1]]).2 (by decide) (by decide)).2.1,
   (((C10_add_chunks id id { chunks := [], file_hashes := [], index := [] }
      [c10Chunk] [[1]]).2 (by decide) (by decide)).2.2.2.1 0 (by decide)).1⟩

/-- The stop condition of the forward scan of `find_python_bounds`, as the
claim states it: a non-blank, non-comment line at indentation at most the
baseline. -/
def pyStopLine (lines : List PyStr) (base : Nat) (j : Nat) : Bool :=
  !(isBlankLine (lines.getD j []) || isCommentLine (lines.getD j [])) &&
    decide (leading_indent (lines.getD j []) ≤ base)

theorem decoStart_spec (lines : List PyStr) :
    ∀ s, SymbolBoundsDetector.decoStart lines s =
      s - ((List.range s).reverse.takeWhile
        (fun j => isDecoLine (lines.getD j []))).length := by
  intro s
  induction s with
  | zero => rfl
  | succ s ih =>
    have hrev : (List.range (s + 1)).reverse = s :: (List.range s).reverse := by
      rw [List.range_succ, List.reverse_append]
      rfl
    rw [hrev]
    by_cases hdec : isDecoLine (lines.getD s []) = true
    · have hk : ((List.range s).reverse.takeWhile
          (fun j => isDecoLine (lines.getD j []))).length ≤ s := by
        refine le_trans (List.takeWhile_sublist _).length_le ?_
        simp
      simp only [SymbolBoundsDetector.decoStart, if_pos hdec,
        List.takeWhile_cons, hdec, List.length_cons, if_true]
      rw [ih]
      omega
    · simp only [SymbolBoundsDetector.decoStart, if_neg hdec,
        List.takeWhile_cons]
      simp [Bool.eq_false_iff.mpr hdec]

theorem scanStop_spec (lines : List PyStr) (base : Nat) :
    ∀ (l : List PyStr) (i : Nat), l = lines.drop i →
      SymbolBoundsDetector.scanStop base l i =
        ((List.range' i (lines.length - i)).find?
          (pyStopLine lines base)).map (fun j => j - 1) := by
  intro l
  induction l with
  | nil =>
    intro i hdrop
    have hlen : lines.length - i = 0 := by
      have := congrArg List.length hdrop
      simp [List.length_drop] at this
      omega
    rw [hlen]
    rfl
  | cons line rest ih =>
    intro i hdrop
    have hlen : lines.length - i = rest.length + 1 := by
      have := congrArg List.length hdrop
      simpa [List.length_drop] using this.symm
    have hi : i < lines.length := by omega
    have hcons : line :: rest = lines[i] :: lines.drop (i + 1) :=
      hdrop.trans (List.drop_eq_getElem_cons hi)
    have hline : line = lines[i] := by injection hcons
    have hrest : rest = lines.drop (i + 1) := by injection hcons
    have hgd : lines.getD i [] = lines[i] := List.getD_eq_getElem lines [] hi
    have hrange : List.range' i (lines.length - i) =
        i :: List.range' (i + 1) (lines.length - (i + 1)) := by
      rw [hlen]
      have : rest.length = lines.length - (i + 1) := by omega
      rw [← this]
      exact List.range'_succ i rest.length 1
    rw [hrange]
    simp only [List.find?]
    by_cases hbc : (isBlankLine line || isCommentLine line) = true
    · have hpred : pyStopLine lines base i = false := by
        simp only [pyStopLine, hgd, ← hline, hbc]
        rfl
      rw [hpred]
      simp only [SymbolBoundsDetector.scanStop, hbc, if_true]
      exact ih (i + 1) hrest
    · by_cases hind : leading_indent line ≤ base
      · have hpred : pyStopLine lines base i = true := by
          simp only [pyStopLine, hgd, ← hline]
          rw [Bool.eq_false_iff.mpr hbc]
          simp [hind]
        rw [hpred]
        simp only [SymbolBoundsDetector.scanStop, hbc, if_false, if_pos hind]
        rfl
      · have hpred : pyStopLine lines base i = false := by
          simp only [pyStopLine, hgd, ← hline]
          simp [hind]
        rw [hpred]
        simp only [SymbolBoundsDetector.scanStop, hbc, if_false, if_neg hind]
        exact ih (i + 1) hrest

theorem scanEnd_spec (lines : List PyStr) (base start : Nat) :
    SymbolBoundsDetector.scanEnd lines base start =
      match (List.range' start (lines.length - start)).find?
          (pyStopLine lines base) with
      | some j => j - 1
      | none => lines.length - 1 := by
  unfold SymbolBoundsDetector.scanEnd
  rw [scanStop_spec lines base (lines.drop start) start rfl]
  cases (List.range' start (lines.length - start)).find? (pyStopLine lines base) with
  | none => rfl
  | some j => rfl

/-- The example file of the C6 claim: a decorated two-line function followed
by a top-level statement. -/
def c6Lines : List PyStr :=
  ["@decorator".data, "def foo(a, b):".data, "    return a + b".data,
   "x = 1".data]

/-- CLAIM C6.  `find_python_bounds` extends the start upward over the
contiguous block of decorator lines immediately above the declaration, and
returns as end the line just before the first subsequent non-blank,
non-comment line whose indentation is at most the declaration line's
indentation — or the last line of the file when no such line exists; on the
claim's example with the `def` at 0-based line 1 it returns lines `(0, 2)`,
i.e. 1-based lines 1 through 3. -/
theorem C6_find_python_bounds :
    (∀ lines start_idx, start_idx < lines.length →
      SymbolBoundsDetector.find_python_bounds lines start_idx =
        (start_idx - ((List.range start_idx).reverse.takeWhile
            (fun j => isDecoLine (lines.getD j []))).length,
         match (List.range' (start_idx + 1) (lines.length - (start_idx + 1))).find?
             (pyStopLine lines (leading_indent (lines.getD start_idx []))) with
         | some j => j - 1
         | none => lines.length - 1)) ∧
    SymbolBoundsDetector.find_python_bounds c6Lines 1 = (0, 2) := by
  constructor
  · intro lines start_idx _
    unfold SymbolBoundsDetector.find_python_bounds
    rw [decoStart_spec, scanEnd_spec]
  · decide

/-- Witness for C6: the general characterization applied to the example
file. -/
theorem C6_witness :
    SymbolBoundsDetector.find_python_bounds c6Lines 1 =
      (1 - ((List.range 1).reverse.takeWhile
          (fun j => isDecoLine (c6Lines.getD j []))).length,
       match (List.range' 2 (c6Lines.length - 2)).find?
           (pyStopLine c6Lines (leading_indent (c6Lines.getD 1 []))) with
       | some j => j - 1
       | none => c6Lines.length - 1) :=
  C6_find_python_bounds.1 c6Lines 1 (by decide)

/-- A line that triggers neither branch of the pre-brace phase: no opening
brace, no `;`, and its stripped form does not end in `)`. -/
def jsPlainLine (line : PyStr) : Bool :=
  !(hasChar openBrace line) && !(hasChar ';' line) &&
    !(SymbolBoundsDetector.stripEndsWithParen line)

/-- The cumulative brace depth of the claim: process the lines from the
first-brace line `j` through line `i`, starting at zero, adding one per
opening brace and subtracting one (floored at zero, i.e. the stack pop) per
closing brace. -/
def jsDepthThrough (lines : List PyStr) (j i : Nat) : Nat :=
  ((lines.drop j).take (i + 1 - j)).foldl SymbolBoundsDetector.jsLineStep 0

theorem countChar_pos_of_hasChar {c : Char} {l : PyStr} (h : hasChar c l = true) :
    0 < countChar c l := by
  rcases List.any_eq_true.mp h with ⟨x, hx, hcx⟩
  have hxmem : x ∈ l.filter (fun y => decide (y = c)) := List.mem_filter.mpr ⟨hx, hcx⟩
  exact List.length_pos.mpr (List.ne_nil_of_mem hxmem)

theorem countChar_cons (c x : Char) (rest : PyStr) :
    countChar c (x :: rest) =
      (if x = c then 1 else 0) + countChar c rest := by
  by_cases hx : x = c
  · subst hx
    have h1 : countChar x (x :: rest) = countChar x rest + 1 := by
      simp [countChar, List.filter_cons]
    rw [h1, if_pos rfl]
    omega
  · simp [countChar, List.filter, hx]

theorem jsLineStep_no_close {line : PyStr} (h : countChar closeBrace line = 0) :
    ∀ d, SymbolBoundsDetector.jsLineStep d line = d + countChar openBrace line := by
  induction line with
  | nil =>
    intro d
    simp [SymbolBoundsDetector.jsLineStep, countChar]
  | cons x rest ih =>
    intro d
    rw [countChar_cons] at h
    have hxc : ¬ x = closeBrace := by
      intro hx
      rw [if_pos hx] at h
      omega
    rw [if_neg hxc, Nat.zero_add] at h
    have hrest := ih h
    by_cases hxo : x = openBrace
    · have : SymbolBoundsDetector.jsLineStep d (x :: rest) =
          SymbolBoundsDetector.jsLineStep (d + 1) rest := by
        simp [SymbolBoundsDetector.jsLineStep, List.foldl_cons, hxo]
      rw [this, hrest (d + 1), countChar_cons, if_pos hxo]
      omega
    · have : SymbolBoundsDetector.jsLineStep d (x :: rest) =
          SymbolBoundsDetector.jsLineStep d rest := by
        simp [SymbolBoundsDetector.jsLineStep, List.foldl_cons, hxo, hxc]
      rw [this, hrest d, countChar_cons, if_neg hxo]
      omega

theorem jsLineStep_cons (d : Nat) (x : Char) (rest : PyStr) :
    SymbolBoundsDetector.jsLineStep d (x :: rest) =
      SymbolBoundsDetector.jsLineStep
        (if x = openBrace then d + 1 else if x = closeBrace then d - 1 else d) rest := by
  simp [SymbolBoundsDetector.jsLineStep, List.foldl_cons]

theorem jsDepthThrough_self {lines : List PyStr} {j : Nat} (hj : j < lines.length) :
    jsDepthThrough lines j j =
      SymbolBoundsDetector.jsLineStep 0 (lines.getD j []) := by
  unfold jsDepthThrough
  have h1 : j + 1 - j = 1 := by omega
  have h2 : (lines.drop j).take 1 = [lines[j]] := by
    rw [List.drop_eq_getElem_cons hj]
    rfl
  rw [h1, h2, List.getD_eq_getElem lines [] hj]
  rfl

theorem jsDepthThrough_succ (lines : List PyStr) (j k : Nat) (hjk : j ≤ k)
    (hk : k + 1 < lines.length) :
    jsDepthThrough lines j (k + 1) =
      SymbolBoundsDetector.jsLineStep (jsDepthThrough lines j k)
        (lines.getD (k + 1) []) := by
  unfold jsDepthThrough
  have h1 : k + 1 + 1 - j = (k + 1 - j) + 1 := by omega
  have h2 : (lines.drop j)[k + 1 - j]? = some lines[k + 1] := by
    rw [List.getElem?_drop]
    have h3 : j + (k + 1 - j) = k + 1 := by omega
    rw [h3]
    exact List.getElem?_eq_getElem hk
  rw [h1, List.take_succ, h2, List.foldl_append,
    List.getD_eq_getElem lines [] hk]
  rfl

theorem jsScan1_skip_plain (lines : List PyStr) (j : Nat) (hj : j < lines.length) :
    ∀ (l : List PyStr) (i : Nat), l = lines.drop i → i ≤ j →
      (∀ k, i ≤ k → k < j → jsPlainLine (lines.getD k []) = true) →
      SymbolBoundsDetector.jsScan1 l i =
        SymbolBoundsDetector.jsScan1 (lines.drop j) j := by
  intro l
  induction l with
  | nil =>
    intro i hdrop hij _
    have := congrArg List.length hdrop
    simp [List.length_drop] at this
    omega
  | cons line rest ih =>
    intro i hdrop hij hplain
    rcases Nat.eq_or_lt_of_le hij with rfl | hlt
    · rw [hdrop]
    · have hi : i < lines.length := lt_trans hlt hj
      have hcons : line :: rest = lines[i] :: lines.drop (i + 1) :=
        hdrop.trans (List.drop_eq_getElem_cons hi)
      have hline : line = lines[i] := by injection hcons
      have hrest : rest = lines.drop (i + 1) := by injection hcons
      have hgd : lines.getD i [] = lines[i] := List.getD_eq_getElem lines [] hi
      have hp := hplain i le_rfl hlt
      rw [hgd, ← hline] at hp
      simp only [jsPlainLine, Bool.and_eq_true, Bool.not_eq_true'] at hp
      obtain ⟨⟨hb1, hb2⟩, hb3⟩ := hp
      simp only [SymbolBoundsDetector.jsScan1, hb1, hb2, hb3, Bool.or_self,
        Bool.false_eq_true, if_false]
      exact ih (i + 1) hrest hlt
        (fun k hk1 hk2 => hplain k (le_trans (Nat.le_succ i) hk1) hk2)

theorem jsScan1_at_terminator {lines : List PyStr} {j : Nat} (hj : j < lines.length)
    (hnb : hasChar openBrace (lines.getD j []) = false)
    (hterm : (hasChar ';' (lines.getD j []) ||
      SymbolBoundsDetector.stripEndsWithParen (lines.getD j [])) = true) :
    SymbolBoundsDetector.jsScan1 (lines.drop j) j = some (.inl j) := by
  have hgd : lines.getD j [] = lines[j] := List.getD_eq_getElem lines [] hj
  rw [hgd] at hnb hterm
  rw [List.drop_eq_getElem_cons hj]
  simp only [SymbolBoundsDetector.jsScan1, hnb, hterm, Bool.false_eq_true,
    if_false, if_true]

theorem jsScan1_at_brace {lines : List PyStr} {j : Nat} (hj : j < lines.length)
    (hb : hasChar openBrace (lines.getD j []) = true)
    (hc0 : countChar closeBrace (lines.getD j []) = 0) :
    SymbolBoundsDetector.jsScan1 (lines.drop j) j =
      some (.inr (countChar openBrace (lines.getD j []), j + 1)) := by
  have hgd : lines.getD j [] = lines[j] := List.getD_eq_getElem lines [] hj
  rw [hgd] at hb hc0
  have hpos : 0 < countChar openBrace lines[j] := countChar_pos_of_hasChar hb
  have hne : ¬ countChar openBrace lines[j] = 0 := by omega
  rw [List.drop_eq_getElem_cons hj]
  simp only [SymbolBoundsDetector.jsScan1, hb, if_true, hc0, if_pos rfl,
    if_neg hne, hgd]

theorem jsScan2_spec (lines : List PyStr) (j : Nat) :
    ∀ (l : List PyStr) (i d : Nat), l = lines.drop i → j < i → d ≠ 0 →
      d = jsDepthThrough lines j (i - 1) →
      SymbolBoundsDetector.jsScan2 d l i =
        (List.range' i (lines.length - i)).find?
          (fun e => decide (jsDepthThrough lines j e = 0)) := by
  intro l
  induction l with
  | nil =>
    intro i d hdrop _ _ _
    have hlen : lines.length - i = 0 := by
      have := congrArg List.length hdrop
      simp [List.length_drop] at this
      omega
    rw [hlen]
    rfl
  | cons line rest ih =>
    intro i d hdrop hji hd0 hdv
    have hlen : lines.length - i = rest.length + 1 := by
      have := congrArg List.length hdrop
      simpa [List.length_drop] using this.symm
    have hi : i < lines.length := by omega
    have hcons : line :: rest = lines[i] :: lines.drop (i + 1) :=
      hdrop.trans (List.drop_eq_getElem_cons hi)
    have hline : line = lines[i] := by injection hcons
    have hrest : rest = lines.drop (i + 1) := by injection hcons
    have hgd : lines.getD i [] = lines[i] := List.getD_eq_getElem lines [] hi
    have hstep : jsDepthThrough lines j i =
        SymbolBoundsDetector.jsLineStep d line := by
      have hi1 : i - 1 + 1 = i := by omega
      have hs := jsDepthThrough_succ lines j (i - 1) (by omega) (by omega)
      rw [hi1] at hs
      rw [hs, ← hdv, hgd, hline]
    have hrange : List.range' i (lines.length - i) =
        i :: List.range' (i + 1) (lines.length - (i + 1)) := by
      rw [hlen]
      have h2 : rest.length = lines.length - (i + 1) := by omega
      rw [← h2]
      exact List.range'_succ i rest.length 1
    rw [hrange]
    simp only [List.find?]
    by_cases hz : SymbolBoundsDetector.jsLineStep d line = 0
    · have hpred : decide (jsDepthThrough lines j i = 0) = true := by
        rw [hstep]
        exact decide_eq_true hz
      rw [hpred]
      simp [SymbolBoundsDetector.jsScan2, hz]
    · have hpred : decide (jsDepthThrough lines j i = 0) = false := by
        rw [hstep]
        exact decide_eq_false hz
      rw [hpred]
      simp only [SymbolBoundsDetector.jsScan2, if_neg hz]
      refine ih (i + 1) (SymbolBoundsDetector.jsLineStep d line) hrest
        (by omega) hz ?_
      have : i + 1 - 1 = i := by omega
      rw [this, hstep]

/-- A file whose first-brace line is `"} {"`, used by the C7 counterexample
(braces written via `\x7b`/`\x7d` escapes). -/
def c7CtrLines : List PyStr :=
  ["\x7d \x7b".data, "\x7d".data]

/-- CLAIM C7, counterexample to the brace-counter clause.  On a file whose
first-brace line is `"} {"`, the source computes the line's opening-brace
count (1), truncates the stack by the closing-brace count
(`brace_stack[:-1]`, leaving it empty) and returns that line as a
single-line declaration: bounds `(0, 0)`.  A brace-depth counter over the
line's brace characters, as the claim describes, stands at 1 after that line
(the closing brace precedes the opening one) and first returns to zero on
line 1, so the claimed end is line 1, not line 0. -/
theorem C7_counterexample :
    SymbolBoundsDetector.find_javascript_bounds c7CtrLines 0 = (0, 0) ∧
    ¬ (SymbolBoundsDetector.find_javascript_bounds c7CtrLines 0 =
        (0, match (List.range' 0 (c7CtrLines.length - 0)).find?
              (fun e => decide (jsDepthThrough c7CtrLines 0 e = 0)) with
            | some e => e
            | none => c7CtrLines.length - 1)) := by
  decide

/-- The example file of the C7 claim (braces written via `\x7b`/`\x7d`
escapes). -/
def c7Lines : List PyStr :=
  ["function foo() \x7b".data, "  if (x) \x7b".data, "    return 1;".data,
   "  \x7d".data, "\x7d".data, "let y = 2;".data]

/-- CLAIM C7, amended.  `find_javascript_bounds` scans forward for the first
opening brace; a line with no opening brace that contains `;` or ends
(stripped) in `)` before any brace is a single-line declaration; on the
claim's example, bounds from line 0 are `(0, 4)`, i.e. 1-based lines 1
through 5.  The claim's brace-depth-counter description of the end holds
provided the first-brace line contains no closing brace: on that line the
source truncates the whole stack in one batch
(`brace_stack[:-line.count(...)]`) instead of running a per-character
counter, and when the line's closing braces cancel all its opening braces it
declares a single-line end where the claim's running counter would continue
(see the counterexample). -/
theorem C7_find_javascript_bounds :
    (∀ lines s j, s ≤ j → j < lines.length →
      (∀ k, s ≤ k → k < j → jsPlainLine (lines.getD k []) = true) →
      hasChar openBrace (lines.getD j []) = false →
      (hasChar ';' (lines.getD j []) ||
        SymbolBoundsDetector.stripEndsWithParen (lines.getD j [])) = true →
      SymbolBoundsDetector.find_javascript_bounds lines s = (s, j)) ∧
    (∀ lines s j, s ≤ j → j < lines.length →
      (∀ k, s ≤ k → k < j → jsPlainLine (lines.getD k []) = true) →
      hasChar openBrace (lines.getD j []) = true →
      countChar closeBrace (lines.getD j []) = 0 →
      SymbolBoundsDetector.find_javascript_bounds lines s =
        (s, match (List.range' j (lines.length - j)).find?
              (fun e => decide (jsDepthThrough lines j e = 0)) with
            | some e => e
            | none => lines.length - 1)) ∧
    SymbolBoundsDetector.find_javascript_bounds c7Lines 0 = (0, 4) := by
  refine ⟨?_, ?_, by decide⟩
  · intro lines s j hsj hj hplain hnb hterm
    unfold SymbolBoundsDetector.find_javascript_bounds
    rw [jsScan1_skip_plain lines j hj (lines.drop s) s rfl hsj hplain,
      jsScan1_at_terminator hj hnb hterm]
  · intro lines s j hsj hj hplain hb hc0
    unfold SymbolBoundsDetector.find_javascript_bounds
    rw [jsScan1_skip_plain lines j hj (lines.drop s) s rfl hsj hplain,
      jsScan1_at_brace hj hb hc0]
    have hd0 : jsDepthThrough lines j j = countChar openBrace (lines.getD j []) := by
      rw [jsDepthThrough_self hj, jsLineStep_no_close hc0 0, Nat.zero_add]
    have hpos : 0 < countChar openBrace (lines.getD j []) :=
      countChar_pos_of_hasChar hb
    have harg : countChar openBrace (lines.getD j []) =
        jsDepthThrough lines j (j + 1 - 1) := by
      have h1 : j + 1 - 1 = j := by omega
      rw [h1, hd0]
    have hscan := jsScan2_spec lines j (lines.drop (j + 1)) (j + 1)
      (countChar openBrace (lines.getD j [])) rfl (by omega) (by omega) harg
    have hrange : List.range' j (lines.length - j) =
        j :: List.range' (j + 1) (lines.length - (j + 1)) := by
      have h1 : lines.length - j = (lines.length - (j + 1)) + 1 := by omega
      rw [h1]
      exact List.range'_succ j (lines.length - (j + 1)) 1
    have hpred : decide (jsDepthThrough lines j j = 0) = false := by
      refine decide_eq_false ?_
      omega
    show (match SymbolBoundsDetector.jsScan2 (countChar openBrace (lines.getD j []))
        (lines.drop (j + 1)) (j + 1) with
      | some e => (s, e)
      | none => (s, lines.length - 1)) =
      (s, match (List.range' j (lines.length - j)).find?
            (fun e => decide (jsDepthThrough lines j e = 0)) with
          | some e => e
          | none => lines.length - 1)
    rw [hscan, hrange]
    simp only [List.find?, hpred]
    cases (List.range' (j + 1) (lines.length - (j + 1))).find?
        (fun e => decide (jsDepthThrough lines j e = 0)) with
    | some e => rfl
    | none => rfl

/-- Witness for C7: the terminator clause on a one-line `let` declaration,
the brace clause on the example file, and the example result itself. -/
theorem C7_witness :
    SymbolBoundsDetector.find_javascript_bounds ["let y = 2;".data] 0 = (0, 0) ∧
    SymbolBoundsDetector.find_javascript_bounds c7Lines 0 =
      (0, match (List.range' 0 (c7Lines.length - 0)).find?
            (fun e => decide (jsDepthThrough c7Lines 0 e = 0)) with
          | some e => e
          | none => c7Lines.length - 1) :=
  ⟨C7_find_javascript_bounds.1 ["let y = 2;".data] 0 0 (by decide) (by decide)
      (fun k _ hk2 => absurd hk2 (Nat.not_lt_zero k))
      (by decide) (by decide),
   C7_find_javascript_bounds.2.1 c7Lines 0 0 (by decide) (by decide)
      (fun k _ hk2 => absurd hk2 (Nat.not_lt_zero k))
      (by decide) (by decide)⟩

/-- The example file of the C8 scenario. -/
def c8Lines : List PyStr := ["x = 1".data]

/-- CLAIM C8, counterexample.  A request supplying both a `symbol_name` and
an explicit (valid) line range is NOT rejected: the line-range branch is
checked first and succeeds, silently ignoring the symbol name — the result is
identical to the same request without the symbol name. -/
theorem C8_counterexample :
    SymbolReader.ReadResult.isOk
      (SymbolReader.read_code_content [] ("a.py".data) c8Lines (some 1) (some 1)
        (some ("foo".data)) 1 false) = true ∧
    SymbolReader.read_code_content [] ("a.py".data) c8Lines (some 1) (some 1)
        (some ("foo".data)) 1 false =
      SymbolReader.read_code_content [] ("a.py".data) c8Lines (some 1) (some 1)
        none 1 false :=
  ⟨by decide, rfl⟩

/-- CLAIM C8, amended.  `read_code_content` rejects an invalid line range
(start or end below 1, end beyond the file, start above end) and an
out-of-range occurrence (below 1 or above the number of matches found) with
an error result before any extraction; but a request carrying both a symbol
name and an explicit range is not rejected — the range takes priority and the
symbol name is ignored. -/
theorem C8_read_code_content_validation :
    (∀ (db : List ChunkRow) (fp : PyStr) (lines : List PyStr) (s e : Int)
        (nm : Option PyStr) (occ : Int) (wl : Bool),
      (s < 1 ∨ e < 1 ∨ e > (lines.length : Int) ∨ s > e) →
      ∃ m, SymbolReader.read_code_content db fp lines (some s) (some e) nm occ wl =
        .err m) ∧
    (∀ (db : List ChunkRow) (fp : PyStr) (lines : List PyStr) (nm : PyStr)
        (occ : Int) (wl : Bool),
      nm ≠ [] →
      (occ < 1 ∨ (SymbolReader.matchesFound db fp lines nm : Int) < occ) →
      ∃ m, SymbolReader.read_code_content db fp lines none none (some nm) occ wl =
        .err m) ∧
    (∀ (db : List ChunkRow) (fp : PyStr) (lines : List PyStr) (s e : Int)
        (nm : PyStr) (occ : Int) (wl : Bool),
      SymbolReader.read_code_content db fp lines (some s) (some e) (some nm) occ wl =
        SymbolReader.read_code_content db fp lines (some s) (some e) none occ wl) := by
  refine ⟨?_, ?_, ?_⟩
  · intro db fp lines s e nm occ wl hinv
    simp only [SymbolReader.read_code_content]
    rw [if_pos hinv]
    exact ⟨_, rfl⟩
  · intro db fp lines nm occ wl hnm hocc
    simp only [SymbolReader.read_code_content]
    rw [if_neg hnm]
    by_cases hdb : SymbolReader.find_symbol_in_database db nm (some fp) = []
    · rw [if_pos hdb]
      by_cases hfm : SymbolReader.fallbackMatches (detect_language fp) lines nm = []
      · rw [if_pos hfm]
        exact ⟨_, rfl⟩
      · rw [if_neg hfm]
        have hmf : SymbolReader.matchesFound db fp lines nm =
            (SymbolReader.fallbackMatches (detect_language fp) lines nm).length := by
          simp [SymbolReader.matchesFound, hdb]
        rw [hmf] at hocc
        rw [if_pos ?_]
        · exact ⟨_, rfl⟩
        · rcases hocc with h | h
          · exact Or.inl h
          · exact Or.inr h
    · rw [if_neg hdb]
      have hmf : SymbolReader.matchesFound db fp lines nm =
          (SymbolReader.find_symbol_in_database db nm (some fp)).length := by
        simp [SymbolReader.matchesFound, hdb]
      rw [hmf] at hocc
      rw [if_pos ?_]
      · exact ⟨_, rfl⟩
      · rcases hocc with h | h
        · exact Or.inl h
        · exact Or.inr h
  · intro db fp lines s e nm occ wl
    rfl

/-- Witness for the amended C8: a range starting at 0 is rejected, and a
symbol request with occurrence 0 is rejected. -/
theorem C8_witness :
    (∃ m, SymbolReader.read_code_content [] ("a.py".data) c8Lines (some 0) (some 1)
      none 1 false = .err m) ∧
    (∃ m, SymbolReader.read_code_content [] ("a.py".data) c8Lines none none
      (some ("foo".data)) 0 false = .err m) :=
  ⟨C8_read_code_content_validation.1 [] ("a.py".data) c8Lines 0 1 none 1 false
      (Or.inl (by decide)),
   C8_read_code_content_validation.2.1 [] ("a.py".data) c8Lines ("foo".data) 0 false
      (by decide) (Or.inl (by decide))⟩

/-- CLAIM C5, amended.  A declaration chunk's span starts at `node.lineno` —
the line of the `def`/`class` keyword itself (CPython ≥ 3.8 AST semantics) —
and ends at `node.end_lineno`; decorators preceding the declaration are NOT
included in the span. -/
theorem C5_chunk_line_span :
    (∀ (md5hex : PyStr → PyStr) (fp content : PyStr) (f : PyFunc)
        (body : List PyStmt) (c : ChunkData),
      PythonChunker.create_function_chunk md5hex fp content f body = some c →
      c.line_start = f.lineno ∧ c.line_end = f.end_lineno) ∧
    (∀ (md5hex : PyStr → PyStr) (fp content : PyStr) (cl : PyClass)
        (body : List PyStmt) (c : ChunkData),
      PythonChunker.create_class_chunk md5hex fp content cl body = some c →
      c.line_start = cl.lineno ∧ c.line_end = cl.end_lineno) := by
  constructor
  · intro md5hex fp content f body c h
    unfold PythonChunker.create_function_chunk at h
    by_cases hg : f.lineno = 0 ∨ f.end_lineno = 0
    · rw [if_pos hg] at h
      cases h
    · rw [if_neg hg] at h
      injection h with h
      subst h
      exact ⟨rfl, rfl⟩
  · intro md5hex fp content cl body c h
    unfold PythonChunker.create_class_chunk at h
    by_cases hg : cl.lineno = 0 ∨ cl.end_lineno = 0
    · rw [if_pos hg] at h
      cases h
    · rw [if_neg hg] at h
      injection h with h
      subst h
      exact ⟨rfl, rfl⟩

/-- The decorated function of the C5 example: the decorator sits on line 1,
the `def` keyword on line 2 (so `lineno = 2` per the CPython AST), the body
ends on line 3. -/
def c5Func : PyFunc :=
  { isAsync := false
    name := "foo".data
    lineno := 2
    end_lineno := 3
    decorator_linenos := [1]
    args := [("a".data, none), ("b".data, none)]
    returns := none }

/-- The example file content of the C5 scenario. -/
def c5Content : PyStr := "@decorator\ndef foo(a, b):\n    return a + b\nx = 1".data

/-- The chunk the chunker emits for `c5Func` (with the digest modelled as the
identity function). -/
def c5Chunk : ChunkData :=
  { chunk_id := "a.py:foo:2".data
    file_path := "a.py".data
    chunk_type := "function".data
    symbol_name := some ("foo".data)
    line_start := 2
    line_end := 3
    content := "def foo(a, b):\n    return a + b".data
    signature := some ("def foo(a, b)".data)
    docstring := some ("None".data)
    file_hash := none }

/-- CLAIM C5, counterexample.  For the decorated function of the claim's
example the emitted chunk has `line_start = 2` (the `def` line), not 1 (the
first decorator's line), and the chunk's extracted content does not contain
the decorator line. -/
theorem C5_counterexample :
    (PythonChunker.create_function_chunk (fun s => s) ("a.py".data) c5Content
        c5Func []).map (fun c => c.line_start) = some 2 ∧
    c5Func.decorator_linenos = [1] ∧
    (PythonChunker.create_function_chunk (fun s => s) ("a.py".data) c5Content
        c5Func []).map (fun c => c.content) =
      some ("def foo(a, b):\n    return a + b".data) := by
  decide

/-- Witness for the amended C5, at the example function. -/
theorem C5_witness :
    c5Chunk.line_start = c5Func.lineno ∧ c5Chunk.line_end = c5Func.end_lineno :=
  C5_chunk_line_span.1 (fun s => s) ("a.py".data) c5Content c5Func [] c5Chunk
    (by decide)

theorem walkChunks_id (md5hex : PyStr → PyStr) (fp content : PyStr) :
    ∀ (stmts : List PyStmt) (c : ChunkData),
      c ∈ PythonChunker.walkChunks md5hex fp content stmts →
      ∃ nm, c.symbol_name = some nm ∧
        c.chunk_id = PythonChunker.generate_chunk_id md5hex fp nm c.line_start := by
  intro stmts
  induction stmts using PythonChunker.walkChunks.induct md5hex fp content with
  | case1 =>
    intro c hc
    simp only [PythonChunker.walkChunks] at hc
    cases hc
  | case2 f body rest ih1 ih2 =>
    intro c hc
    simp only [PythonChunker.walkChunks] at hc
    rcases List.mem_append.mp hc with hc | hc
    · rcases List.mem_append.mp hc with hc | hc
      · cases hcf : PythonChunker.create_function_chunk md5hex fp content f body with
        | none =>
          rw [hcf] at hc
          cases hc
        | some ch =>
          rw [hcf] at hc
          have hceq : c = ch := List.mem_singleton.mp hc
          subst hceq
          unfold PythonChunker.create_function_chunk at hcf
          by_cases hg : f.lineno = 0 ∨ f.end_lineno = 0
          · rw [if_pos hg] at hcf
            cases hcf
          · rw [if_neg hg] at hcf
            injection hcf with hcf
            subst hcf
            exact ⟨f.name, rfl, rfl⟩
      · exact ih1 c hc
    · exact ih2 c hc
  | case3 cl body rest ih1 ih2 =>
    intro c hc
    simp only [PythonChunker.walkChunks] at hc
    rcases List.mem_append.mp hc with hc | hc
    · rcases List.mem_append.mp hc with hc | hc
      · by_cases hcol : cl.col_offset = 0
        · rw [if_pos hcol] at hc
          cases hcf : PythonChunker.create_class_chunk md5hex fp content cl body with
          | none =>
            rw [hcf] at hc
            cases hc
          | some ch =>
            rw [hcf] at hc
            have hceq : c = ch := List.mem_singleton.mp hc
            subst hceq
            unfold PythonChunker.create_class_chunk at hcf
            by_cases hg : cl.lineno = 0 ∨ cl.end_lineno = 0
            · rw [if_pos hg] at hcf
              cases hcf
            · rw [if_neg hg] at hcf
              injection hcf with hcf
              subst hcf
              exact ⟨cl.name, rfl, rfl⟩
        · rw [if_neg hcol] at hc
          cases hc
      · exact ih1 c hc
    · exact ih2 c hc
  | case4 names rest ih =>
    intro c hc
    simp only [PythonChunker.walkChunks] at hc
    exact ih c hc
  | case5 module rest ih =>
    intro c hc
    simp only [PythonChunker.walkChunks] at hc
    exact ih c hc
  | case6 v rest ih =>
    intro c hc
    simp only [PythonChunker.walkChunks] at hc
    exact ih c hc
  | case7 rest ih =>
    intro c hc
    simp only [PythonChunker.walkChunks] at hc
    exact ih c hc

/-- CLAIM C9.  Chunking is deterministic — two runs of `chunk_file` on the
same `(file path, content, parse result)` produce identical chunk-id lists —
and every emitted chunk's id is the deterministic digest of
`(file_path, symbol_name, line_start)` computed by `generate_chunk_id`. -/
theorem C9_chunking_deterministic :
    (∀ (md5hex : PyStr → PyStr) (fp content : PyStr)
        (parsed : Except PyStr (List PyStmt)) (out1 out2 : List ChunkData),
      out1 = PythonChunker.chunk_file md5hex fp content parsed →
      out2 = PythonChunker.chunk_file md5hex fp content parsed →
      out1.map (fun c => c.chunk_id) = out2.map (fun c => c.chunk_id)) ∧
    (∀ (md5hex : PyStr → PyStr) (fp content : PyStr)
        (parsed : Except PyStr (List PyStmt)),
      ∀ c ∈ PythonChunker.chunk_file md5hex fp content parsed,
        ∃ nm, c.symbol_name = some nm ∧
          c.chunk_id = PythonChunker.generate_chunk_id md5hex fp nm c.line_start) := by
  constructor
  · intro md5hex fp content parsed out1 out2 h1 h2
    subst h1
    subst h2
    rfl
  · intro md5hex fp content parsed c hc
    cases parsed with
    | error e =>
      simp only [PythonChunker.chunk_file] at hc
      have hceq := List.mem_singleton.mp hc
      subst hceq
      exact ⟨"syntax_error".data, rfl, rfl⟩
    | ok body =>
      simp only [PythonChunker.chunk_file] at hc
      rcases List.mem_cons.mp hc with rfl | hc
      · exact ⟨"file_overview".data, rfl, rfl⟩
      · exact walkChunks_id md5hex fp content body c hc

/-- A small parse tree for the C9 witness: one import and one function. -/
def c9Body : List PyStmt :=
  [PyStmt.importStmt ["os".data],
   PyStmt.functionDef c5Func []]

/-- Witness for C9: two runs on the same input have identical chunk-id lists,
and the file-overview chunk's id is the digest of
`(file_path, file_overview, 1)`. -/
theorem C9_witness :
    (PythonChunker.chunk_file (fun s => s) ("a.py".data) c5Content
        (Except.ok c9Body)).map (fun c => c.chunk_id) =
      (PythonChunker.chunk_file (fun s => s) ("a.py".data) c5Content
        (Except.ok c9Body)).map (fun c => c.chunk_id) ∧
    (∃ nm, (PythonChunker.create_file_overview (fun s => s) ("a.py".data)
        c5Content c9Body).symbol_name = some nm ∧
      (PythonChunker.create_file_overview (fun s => s) ("a.py".data)
          c5Content c9Body).chunk_id =
        PythonChunker.generate_chunk_id (fun s => s) ("a.py".data) nm
          (PythonChunker.create_file_overview (fun s => s) ("a.py".data)
            c5Content c9Body).line_start) :=
  ⟨C9_chunking_deterministic.1 (fun s => s) ("a.py".data) c5Content
      (Except.ok c9Body) _ _ rfl rfl,
   C9_chunking_deterministic.2 (fun s => s) ("a.py".data) c5Content
      (Except.ok c9Body)
      (PythonChunker.create_file_overview (fun s => s) ("a.py".data) c5Content c9Body)
      (List.mem_cons_self _ _)⟩

end CodebaseMCP
